import Mathlib

/-!
Verification of the OmLx-Atlas catalog and scanner core.

This file shallowly embeds the data model and the operations of the
repository's discovery / classification / deduplication / reconciliation
pipeline (src/database.js, src/unnamed/part_006, src/gameScanner.js) and
proves or refutes the specified properties about them.

Modelling conventions, used throughout:
* JavaScript `null` and `undefined` are both modelled as `none` of an
  `Option`; a JS value that is present is `some v`.
* JS string truthiness (`""` is falsy) is modelled faithfully by `truthyS`;
  array and object values are always truthy, so for them `x || y` is
  `Option.or`.
* Timestamps (`new Date().toISOString()`) are threaded as an explicit
  `now : String` argument; `new Date(x).toISOString()` round-trips of
  already-stored timestamp strings are modelled as the identity.
* The on-disk JSON store is modelled as the in-memory `List Game` that
  `loadGames`/`saveGames` read and write; "byte-identical state" is
  equality of that list.
-/

namespace Atlas

/-- One playtime session entry, `{date, duration}` (src/unnamed/part_006
lines 231-234). -/
structure Session where
  date : String
  duration : Int
deriving DecidableEq, Repr

/-- The `playTime` object `{totalMinutes, sessions}` (part_006 line 161). -/
structure PlayTime where
  totalMinutes : Int
  sessions : List Session
deriving DecidableEq, Repr

/-- The `achievements` object `{unlocked, total, list, lastUpdated}`
(part_006 line 162). -/
structure Achievements where
  unlocked : Int
  total : Int
  list : List String
  lastUpdated : Option String
deriving DecidableEq, Repr

/-- The `statsSource` provenance object (part_006 lines 166-170). -/
structure StatsSource where
  playtimeSource : Option String
  lastPlayedSource : Option String
  achievementsSource : Option String
deriving DecidableEq, Repr

/-- The `playtimeData` object (part_006 lines 172-176). -/
structure PlaytimeData where
  official : Int
  trackedLocally : Int
  status : String
deriving DecidableEq, Repr

/-- The `platformIds` object (part_006 lines 178-184). -/
structure PlatformIds where
  steam : Option String
  epic : Option String
  xbox : Option String
  ea : Option String
  ubisoft : Option String
deriving DecidableEq, Repr

/-- A catalog record / candidate entry as stored in games.json.  Optional
fields model JS properties that may be `null` or absent. -/
@[ext]
structure Game where
  id : String
  name : String
  launcher : String
  executablePath : Option String := none
  installPath : Option String := none
  itemType : Option String := none
  coverImage : Option String := none
  backgroundImage : Option String := none
  addedAt : Option String := none
  lastPlayed : Option String := none
  isFavorite : Option Bool := none
  manualLauncherOverride : Option Bool := none
  categories : Option (List String) := none
  playTime : Option PlayTime := none
  achievements : Option Achievements := none
  statsSource : Option StatsSource := none
  playtimeData : Option PlaytimeData := none
  platformIds : Option PlatformIds := none
  steamAppId : Option String := none
  epicAppName : Option String := none
  packageFamilyName : Option String := none
  eaId : Option String := none
  uplayId : Option String := none
deriving DecidableEq, Repr

/-- JS truthiness of an optional string value: `null`/`undefined` and `""`
are falsy. -/
def truthyS (o : Option String) : Bool :=
  match o with
  | some s => s ≠ ""
  | none => false

/-- JS `a || b` on optional string values (returns `b`'s value when `a` is
falsy). -/
def jsOr (a b : Option String) : Option String :=
  if truthyS a then a else b

/-- JS `a || d` where `a` is an optional string and `d` a string default. -/
def jsStr (a : Option String) (d : String) : String :=
  match a with
  | some s => if s = "" then d else s
  | none => d

/-- Default playtime object `{ totalMinutes: 0, sessions: [] }`. -/
def defaultPlayTime : PlayTime := ⟨0, []⟩

/-- Default achievements object `{ unlocked: 0, total: 0, list: [],
lastUpdated: null }`. -/
def defaultAchievements : Achievements := ⟨0, 0, [], none⟩

/-- `new Date(x).toISOString()` on a stored timestamp string, modelled as
the identity on the string. -/
def isoNormalize (s : String) : String := s

/-- The launcher-to-category auto-assignment map of `addGames`
(part_006 lines 133-142). -/
def launcherCategoryMap : String → Option String
  | "steam" => some "Steam"
  | "epic" => some "Epic Games"
  | "xbox" => some "Xbox"
  | "ea" => some "EA App"
  | "ubisoft" => some "Ubisoft Connect"
  | "gog" => some "GOG"
  | "desktop" => some "Desktop Apps"
  | "manual" => some "Uncategorized"
  | _ => none

/-- Drop the first occurrence of `pat` from `cs` (JS
`String.prototype.replace` with a string pattern and `""` replacement). -/
def removeFirst (cs pat : List Char) : List Char :=
  match cs with
  | [] => []
  | c :: rest =>
      if pat.isPrefixOf (c :: rest) then (c :: rest).drop pat.length
      else c :: removeFirst rest pat

/-- `game.id.replace('steam_', '')` (part_006 line 179). -/
def replaceFirstOccur (s pat : String) : String :=
  String.mk (removeFirst s.toList pat.toList)

/-- The `statsSource` value `addGames` builds for a candidate
(part_006 lines 166-170). -/
def mkStatsSource (g : Game) : StatsSource :=
  { playtimeSource := some (jsStr (g.statsSource.bind (·.playtimeSource)) "unknown")
    lastPlayedSource := some (jsStr (g.statsSource.bind (·.lastPlayedSource)) "unknown")
    achievementsSource := some (jsStr (g.statsSource.bind (·.achievementsSource)) "unknown") }

/-- The `playtimeData` value `addGames` builds for a candidate
(part_006 lines 172-176); `|| 0` on a number agrees with `getD 0`. -/
def mkPlaytimeData (g : Game) : PlaytimeData :=
  { official := (g.playtimeData.map (·.official)).getD 0
    trackedLocally := (g.playtimeData.map (·.trackedLocally)).getD 0
    status := jsStr (g.playtimeData.map (·.status)) "unavailable" }

/-- The `platformIds` value `addGames` builds for a candidate
(part_006 lines 178-184). -/
def mkPlatformIds (g : Game) : PlatformIds :=
  { steam := jsOr (g.platformIds.bind (·.steam))
      (if g.launcher = "steam" then some (replaceFirstOccur g.id "steam_") else none)
    epic := jsOr (g.platformIds.bind (·.epic))
      (if g.launcher = "epic" then g.epicAppName else none)
    xbox := jsOr (g.platformIds.bind (·.xbox))
      (if g.launcher = "xbox" then g.packageFamilyName else none)
    ea := jsOr (g.platformIds.bind (·.ea))
      (if g.launcher = "ea" then g.eaId else none)
    ubisoft := jsOr (g.platformIds.bind (·.ubisoft))
      (if g.launcher = "ubisoft" then g.uplayId else none) }

/-- `game.lastPlayed ? new Date(game.lastPlayed).toISOString() : null`
(part_006 line 159): falsy (`null`/`""`) becomes `null`. -/
def lastPlayedBase (g : Game) : Option String :=
  match g.lastPlayed with
  | some d => if d = "" then none else some (isoNormalize d)
  | none => none

/-- The `gameToSave` object `addGames` builds from candidate `g` before the
user-override preservation block (part_006 lines 157-187), with the
already-computed `categories` value `cats`.  The `{...game}` spread keeps
every other field of `g`. -/
def gameToSave (now : String) (g : Game) (cats : List String) : Game :=
  { g with
    lastPlayed := lastPlayedBase g
    addedAt := some (jsStr g.addedAt now)
    playTime := some (g.playTime.getD defaultPlayTime)
    achievements := some (g.achievements.getD defaultAchievements)
    categories := some cats
    statsSource := some (mkStatsSource g)
    playtimeData := some (mkPlaytimeData g)
    platformIds := some (mkPlatformIds g)
    itemType := some (jsStr g.itemType "game") }

/-- The auto-assigned category list for a NEW game (part_006 lines 148-155):
the candidate's categories plus the launcher's category when absent. -/
def autoCatsNew (g : Game) : List String :=
  let cats := g.categories.getD []
  match launcherCategoryMap g.launcher with
  | some c => if c ∈ cats then cats else cats ++ [c]
  | none => cats

/-- The record pushed for a candidate whose id is not yet in the catalog
(part_006 line 205). -/
def newRecord (now : String) (g : Game) : Game :=
  gameToSave now g (autoCatsNew g)

/-- The record stored for candidate `g` when a record `e` with the same id
already exists: the user-override preservation block of `addGames`
(part_006 lines 189-203). -/
def mergeExisting (now : String) (g e : Game) : Game :=
  let t := gameToSave now g (g.categories.getD [])
  { t with
    isFavorite := some (e.isFavorite.getD false)
    coverImage := jsOr e.coverImage t.coverImage
    backgroundImage := jsOr e.backgroundImage t.backgroundImage
    itemType := jsOr e.itemType t.itemType
    categories := e.categories.or t.categories
    playTime := e.playTime.or t.playTime
    achievements := e.achievements.or t.achievements
    lastPlayed := jsOr e.lastPlayed t.lastPlayed }

/-- One iteration of the `addGames` loop for candidate `g`:
`findIndex(g => g.id === game.id)` followed by in-place replacement or
`push` (part_006 lines 144-206). -/
def mergeInto (now : String) (gs : List Game) (g : Game) : List Game :=
  match gs with
  | [] => [newRecord now g]
  | e :: rest =>
      if e.id = g.id then mergeExisting now g e :: rest
      else e :: mergeInto now rest g

/-- `GameDatabase.addGames(gamesList)` (part_006 lines 129-210): fold the
candidate list into the loaded catalog and save the result. -/
def addGames (now : String) (candidates : List Game) (games : List Game) : List Game :=
  candidates.foldl (mergeInto now) games

/-- `games.findIndex(g => g.id === id)` / `games.find(g => g.id === id)`:
the first record with the given id. -/
def firstById (gs : List Game) (i : String) : Option Game :=
  gs.find? (fun g => g.id = i)

/-- The shared shape of the single-record mutation operations of
`GameDatabase` (part_006 lines 224-325): find the first record with the
given id, mutate it in place and save; return `null` and save nothing when
the id is absent.  Returns (returned record, saved catalog). -/
def updateById (gs : List Game) (i : String) (f : Game → Game) : Option Game × List Game :=
  match gs with
  | [] => (none, [])
  | e :: rest =>
      if e.id = i then (some (f e), f e :: rest)
      else
        let r := updateById rest i f
        (r.1, e :: r.2)

/-- `updatePlayTime(gameId, minutesToAdd)` (part_006 lines 224-240). -/
def updatePlayTime (now : String) (gs : List Game) (gameId : String) (minutesToAdd : Int) :
    Option Game × List Game :=
  updateById gs gameId (fun g =>
    let pt := g.playTime.getD defaultPlayTime
    { g with
      playTime := some ⟨pt.totalMinutes + minutesToAdd, pt.sessions ++ [⟨now, minutesToAdd⟩]⟩
      lastPlayed := some now })

/-- `updateAchievements(gameId, data)` (part_006 lines 242-257);
`data.list || []` is the `lst` argument already defaulted by the caller
model. -/
def updateAchievements (now : String) (gs : List Game) (gameId : String)
    (unlocked total : Int) (lst : List String) : Option Game × List Game :=
  updateById gs gameId (fun g =>
    { g with achievements := some ⟨unlocked, total, lst, some now⟩ })

/-- `updateLastPlayed(gameId)` (part_006 lines 259-269). -/
def updateLastPlayed (now : String) (gs : List Game) (gameId : String) :
    Option Game × List Game :=
  updateById gs gameId (fun g => { g with lastPlayed := some now })

/-- `toggleFavorite(gameId)` (part_006 lines 271-281); JS `!undefined`
is `true`, so the toggle of an absent flag stores `true`. -/
def toggleFavorite (gs : List Game) (gameId : String) : Option Game × List Game :=
  updateById gs gameId (fun g => { g with isFavorite := some (!(g.isFavorite.getD false)) })

/-- `updateCoverImage(gameId, imagePath)` (part_006 lines 290-300). -/
def updateCoverImage (gs : List Game) (gameId : String) (imagePath : Option String) :
    Option Game × List Game :=
  updateById gs gameId (fun g => { g with coverImage := imagePath })

/-- `updateBackgroundImage(gameId, imagePath)` (part_006 lines 302-312). -/
def updateBackgroundImage (gs : List Game) (gameId : String) (imagePath : Option String) :
    Option Game × List Game :=
  updateById gs gameId (fun g => { g with backgroundImage := imagePath })

/-- `updateGameLauncher(gameId, newLauncher)` (part_006 lines 314-325). -/
def updateGameLauncher (gs : List Game) (gameId : String) (newLauncher : String) :
    Option Game × List Game :=
  updateById gs gameId (fun g =>
    { g with launcher := newLauncher, manualLauncherOverride := some true })

@[simp]
theorem id_gameToSave (now : String) (g : Game) (cats : List String) :
    (gameToSave now g cats).id = g.id := rfl

@[simp]
theorem id_newRecord (now : String) (g : Game) : (newRecord now g).id = g.id := rfl

@[simp]
theorem id_mergeExisting (now : String) (g e : Game) :
    (mergeExisting now g e).id = g.id := rfl

theorem updateById_absent (gs : List Game) (i : String) (f : Game → Game)
    (h : ∀ g ∈ gs, g.id ≠ i) : updateById gs i f = (none, gs) := by
  induction gs with
  | nil => rfl
  | cons e rest ih =>
      have he : e.id ≠ i := h e (List.mem_cons_self e rest)
      simp only [updateById, if_neg he, ih fun g hg => h g (List.mem_cons_of_mem e hg)]

/-- C10: for a game id absent from the persisted catalog, each
single-record mutation operation (updatePlayTime, updateAchievements,
updateLastPlayed, toggleFavorite, updateCoverImage, updateBackgroundImage,
updateGameLauncher) returns `null` and leaves the catalog unchanged. -/
theorem update_ops_absent_id_noop (now : String) (gs : List Game) (gameId : String)
    (minutes unlocked total : Int) (lst : List String) (img : Option String)
    (newLauncher : String) (h : ∀ g ∈ gs, g.id ≠ gameId) :
    updatePlayTime now gs gameId minutes = (none, gs) ∧
    updateAchievements now gs gameId unlocked total lst = (none, gs) ∧
    updateLastPlayed now gs gameId = (none, gs) ∧
    toggleFavorite gs gameId = (none, gs) ∧
    updateCoverImage gs gameId img = (none, gs) ∧
    updateBackgroundImage gs gameId img = (none, gs) ∧
    updateGameLauncher gs gameId newLauncher = (none, gs) := by
  refine ⟨?_, ?_, ?_, ?_, ?_, ?_, ?_⟩ <;>
    first
      | exact updateById_absent gs gameId _ h

/-- A small concrete catalog used to witness `update_ops_absent_id_noop`. -/
def exampleCatalog : List Game :=
  [{ id := "steam_220", name := "Half-Life 2", launcher := "steam" }]

theorem update_ops_absent_id_noop_witness :
    (∀ g ∈ exampleCatalog, g.id ≠ "epic_x") ∧
    (updatePlayTime "2025-01-01T00:00:00.000Z" exampleCatalog "epic_x" 30 =
        (none, exampleCatalog) ∧
      updateAchievements "2025-01-01T00:00:00.000Z" exampleCatalog "epic_x" 1 10 [] =
        (none, exampleCatalog) ∧
      updateLastPlayed "2025-01-01T00:00:00.000Z" exampleCatalog "epic_x" =
        (none, exampleCatalog) ∧
      toggleFavorite exampleCatalog "epic_x" = (none, exampleCatalog) ∧
      updateCoverImage exampleCatalog "epic_x" (some "c.png") = (none, exampleCatalog) ∧
      updateBackgroundImage exampleCatalog "epic_x" (some "b.png") = (none, exampleCatalog) ∧
      updateGameLauncher exampleCatalog "epic_x" "epic" = (none, exampleCatalog)) :=
  ⟨by decide, update_ops_absent_id_noop "2025-01-01T00:00:00.000Z" exampleCatalog "epic_x"
    30 1 10 [] (some "c.png") "epic" (by decide)⟩

/-- A persisted record first inserted in 2020. -/
def c3Existing : Game :=
  { id := "steam_400", name := "Portal", launcher := "steam"
    addedAt := some "2020-01-01T00:00:00.000Z" }

/-- The same game re-discovered by a 2025 scan; scanner candidates carry no
`addedAt`. -/
def c3Candidate : Game :=
  { id := "steam_400", name := "Portal", launcher := "steam" }

/-- C3: re-merging a candidate with an existing id does NOT keep the stored
`addedAt`: `addGames` rebuilds the record with
`addedAt: game.addedAt || new Date().toISOString()` (part_006 line 160) and
the preservation block (lines 189-203) does not restore the existing
record's `addedAt`, so a re-scan at a later time overwrites it. -/
theorem addedAt_overwritten_on_remerge :
    (addGames "2025-06-01T00:00:00.000Z" [c3Candidate] [c3Existing]).map Game.addedAt
      = [some "2025-06-01T00:00:00.000Z"] := by decide

/-- The per-field preservation contract of a re-discovery merge: every
user-owned field of `e` that is set (truthy) keeps its value in `r`. -/
def PreservedFrom (e r : Game) : Prop :=
  (∀ b, e.isFavorite = some b → r.isFavorite = some b) ∧
  (∀ v, e.coverImage = some v → v ≠ "" → r.coverImage = some v) ∧
  (∀ v, e.backgroundImage = some v → v ≠ "" → r.backgroundImage = some v) ∧
  (∀ v, e.itemType = some v → v ≠ "" → r.itemType = some v) ∧
  (∀ v, e.categories = some v → r.categories = some v) ∧
  (∀ v, e.playTime = some v → r.playTime = some v) ∧
  (∀ v, e.achievements = some v → r.achievements = some v) ∧
  (∀ v, e.lastPlayed = some v → v ≠ "" → r.lastPlayed = some v)

theorem preservedFrom_refl (e : Game) : PreservedFrom e e := by
  refine ⟨?_, ?_, ?_, ?_, ?_, ?_, ?_, ?_⟩ <;> intros <;> assumption

theorem preservedFrom_trans {a b c : Game} (h1 : PreservedFrom a b)
    (h2 : PreservedFrom b c) : PreservedFrom a c := by
  obtain ⟨f1, c1, b1, i1, g1, p1, a1, l1⟩ := h1
  obtain ⟨f2, c2, b2, i2, g2, p2, a2, l2⟩ := h2
  exact ⟨fun v hv => f2 v (f1 v hv),
    fun v hv hne => c2 v (c1 v hv hne) hne,
    fun v hv hne => b2 v (b1 v hv hne) hne,
    fun v hv hne => i2 v (i1 v hv hne) hne,
    fun v hv => g2 v (g1 v hv),
    fun v hv => p2 v (p1 v hv),
    fun v hv => a2 v (a1 v hv),
    fun v hv hne => l2 v (l1 v hv hne) hne⟩

theorem preservedFrom_mergeExisting (now : String) (g e : Game) :
    PreservedFrom e (mergeExisting now g e) := by
  refine ⟨?_, ?_, ?_, ?_, ?_, ?_, ?_, ?_⟩ <;> intro v hv <;>
    simp [mergeExisting, jsOr, truthyS, hv, Option.or]
  all_goals intro hne; simp [hne]

theorem mergeInto_cons_hit (now : String) (g e : Game) (rest : List Game)
    (he : e.id = g.id) :
    mergeInto now (e :: rest) g = mergeExisting now g e :: rest := by
  simp [mergeInto, he]

theorem mergeInto_cons_miss (now : String) (g e : Game) (rest : List Game)
    (he : ¬ e.id = g.id) :
    mergeInto now (e :: rest) g = e :: mergeInto now rest g := by
  simp [mergeInto, he]

theorem find?_mergeInto_ne (now : String) (g : Game) (gs : List Game) (i : String)
    (hne : g.id ≠ i) : firstById (mergeInto now gs g) i = firstById gs i := by
  induction gs with
  | nil => simp [mergeInto, firstById, List.find?, hne]
  | cons e rest ih =>
      by_cases he : e.id = g.id
      · rw [mergeInto_cons_hit now g e rest he]
        have hei : e.id ≠ i := fun h => hne (he.symm.trans h)
        have hm : (mergeExisting now g e).id ≠ i := by
          simpa using hne
        simp only [firstById] at *
        rw [List.find?_cons_of_neg _ (by simpa using hm),
          List.find?_cons_of_neg _ (by simpa using hei)]
      · rw [mergeInto_cons_miss now g e rest he]
        by_cases hei : e.id = i
        · simp only [firstById] at *
          rw [List.find?_cons_of_pos _ (by simpa using hei),
            List.find?_cons_of_pos _ (by simpa using hei)]
        · simp only [firstById] at *
          rw [List.find?_cons_of_neg _ (by simpa using hei),
            List.find?_cons_of_neg _ (by simpa using hei)]
          exact ih

theorem find?_mergeInto_self (now : String) (g : Game) (gs : List Game) :
    firstById (mergeInto now gs g) g.id =
      some (match firstById gs g.id with
            | some e => mergeExisting now g e
            | none => newRecord now g) := by
  induction gs with
  | nil => simp [mergeInto, firstById, List.find?]
  | cons e rest ih =>
      by_cases he : e.id = g.id
      · rw [mergeInto_cons_hit now g e rest he]
        simp only [firstById] at *
        rw [List.find?_cons_of_pos _ (by simp), List.find?_cons_of_pos _ (by simpa using he)]
      · rw [mergeInto_cons_miss now g e rest he]
        simp only [firstById] at *
        rw [List.find?_cons_of_neg _ (by simpa using he),
          List.find?_cons_of_neg _ (by simpa using he)]
        exact ih

theorem addGames_cons (now : String) (c : Game) (cs gs : List Game) :
    addGames now (c :: cs) gs = addGames now cs (mergeInto now gs c) := rfl

/-- C2: a re-discovery merge never overwrites already-set user-owned fields
of an existing catalog record: after `addGames`, the record with the same
id still carries the existing record's `isFavorite`, `coverImage`,
`backgroundImage`, `itemType`, `categories`, `playTime`, `achievements`
and `lastPlayed` whenever those were set; candidate values can enter those
fields only where the existing value was absent/falsy. -/
theorem addGames_preserves_user_fields (now : String) (cs gs : List Game)
    (i : String) (e : Game) (he : firstById gs i = some e) :
    ∃ r, firstById (addGames now cs gs) i = some r ∧ PreservedFrom e r := by
  induction cs generalizing gs e with
  | nil => exact ⟨e, he, preservedFrom_refl e⟩
  | cons c cs' ih =>
      rw [addGames_cons]
      by_cases hc : c.id = i
      · have hfind : firstById (mergeInto now gs c) i = some (mergeExisting now c e) := by
          have := find?_mergeInto_self now c gs
          rw [hc] at this
          rw [this, hc] at *
          rw [he]
        obtain ⟨r, hr, hpres⟩ := ih (mergeInto now gs c) (mergeExisting now c e) hfind
        exact ⟨r, hr, preservedFrom_trans (preservedFrom_mergeExisting now c e) hpres⟩
      · have hfind : firstById (mergeInto now gs c) i = some e := by
          rw [find?_mergeInto_ne now c gs i hc, he]
        exact ih (mergeInto now gs c) e hfind

/-- A favorite record with a custom cover, as in the spec scenario. -/
def c2Existing : Game :=
  { id := "steam_620", name := "Portal 2", launcher := "steam"
    isFavorite := some true, coverImage := some "file:///custom/cover.png" }

/-- A freshly re-discovered candidate for the same id with a different
cover and no favorite flag. -/
def c2Candidate : Game :=
  { id := "steam_620", name := "Portal 2", launcher := "steam"
    coverImage := some "https://cdn.example/other.jpg" }

theorem addGames_preserves_user_fields_witness :
    firstById [c2Existing] "steam_620" = some c2Existing ∧
    ∃ r, firstById (addGames "2025-01-01T00:00:00.000Z" [c2Candidate] [c2Existing])
        "steam_620" = some r ∧ PreservedFrom c2Existing r :=
  ⟨by decide, addGames_preserves_user_fields "2025-01-01T00:00:00.000Z" [c2Candidate]
    [c2Existing] "steam_620" c2Existing (by decide)⟩

@[simp]
theorem mergeExisting_name (now : String) (g e : Game) :
    (mergeExisting now g e).name = g.name := rfl

@[simp]
theorem mergeExisting_launcher (now : String) (g e : Game) :
    (mergeExisting now g e).launcher = g.launcher := rfl

@[simp]
theorem mergeExisting_executablePath (now : String) (g e : Game) :
    (mergeExisting now g e).executablePath = g.executablePath := rfl

@[simp]
theorem mergeExisting_installPath (now : String) (g e : Game) :
    (mergeExisting now g e).installPath = g.installPath := rfl

@[simp]
theorem mergeExisting_itemType (now : String) (g e : Game) :
    (mergeExisting now g e).itemType = jsOr e.itemType (some (jsStr g.itemType "game")) := rfl

@[simp]
theorem mergeExisting_coverImage (now : String) (g e : Game) :
    (mergeExisting now g e).coverImage = jsOr e.coverImage g.coverImage := rfl

@[simp]
theorem mergeExisting_backgroundImage (now : String) (g e : Game) :
    (mergeExisting now g e).backgroundImage = jsOr e.backgroundImage g.backgroundImage := rfl

@[simp]
theorem mergeExisting_addedAt (now : String) (g e : Game) :
    (mergeExisting now g e).addedAt = some (jsStr g.addedAt now) := rfl

@[simp]
theorem mergeExisting_lastPlayed (now : String) (g e : Game) :
    (mergeExisting now g e).lastPlayed = jsOr e.lastPlayed (lastPlayedBase g) := rfl

@[simp]
theorem mergeExisting_isFavorite (now : String) (g e : Game) :
    (mergeExisting now g e).isFavorite = some (e.isFavorite.getD false) := rfl

@[simp]
theorem mergeExisting_manualLauncherOverride (now : String) (g e : Game) :
    (mergeExisting now g e).manualLauncherOverride = g.manualLauncherOverride := rfl

@[simp]
theorem mergeExisting_categories (now : String) (g e : Game) :
    (mergeExisting now g e).categories = e.categories.or (some (g.categories.getD [])) := rfl

@[simp]
theorem mergeExisting_playTime (now : String) (g e : Game) :
    (mergeExisting now g e).playTime = e.playTime.or (some (g.playTime.getD defaultPlayTime)) := rfl

@[simp]
theorem mergeExisting_achievements (now : String) (g e : Game) :
    (mergeExisting now g e).achievements =
      e.achievements.or (some (g.achievements.getD defaultAchievements)) := rfl

@[simp]
theorem mergeExisting_statsSource (now : String) (g e : Game) :
    (mergeExisting now g e).statsSource = some (mkStatsSource g) := rfl

@[simp]
theorem mergeExisting_playtimeData (now : String) (g e : Game) :
    (mergeExisting now g e).playtimeData = some (mkPlaytimeData g) := rfl

@[simp]
theorem mergeExisting_platformIds (now : String) (g e : Game) :
    (mergeExisting now g e).platformIds = some (mkPlatformIds g) := rfl

@[simp]
theorem mergeExisting_steamAppId (now : String) (g e : Game) :
    (mergeExisting now g e).steamAppId = g.steamAppId := rfl

@[simp]
theorem mergeExisting_epicAppName (now : String) (g e : Game) :
    (mergeExisting now g e).epicAppName = g.epicAppName := rfl

@[simp]
theorem mergeExisting_packageFamilyName (now : String) (g e : Game) :
    (mergeExisting now g e).packageFamilyName = g.packageFamilyName := rfl

@[simp]
theorem mergeExisting_eaId (now : String) (g e : Game) :
    (mergeExisting now g e).eaId = g.eaId := rfl

@[simp]
theorem mergeExisting_uplayId (now : String) (g e : Game) :
    (mergeExisting now g e).uplayId = g.uplayId := rfl

@[simp]
theorem newRecord_isFavorite (now : String) (g : Game) :
    (newRecord now g).isFavorite = g.isFavorite := rfl

@[simp]
theorem newRecord_itemType (now : String) (g : Game) :
    (newRecord now g).itemType = some (jsStr g.itemType "game") := rfl

@[simp]
theorem newRecord_coverImage (now : String) (g : Game) :
    (newRecord now g).coverImage = g.coverImage := rfl

@[simp]
theorem newRecord_backgroundImage (now : String) (g : Game) :
    (newRecord now g).backgroundImage = g.backgroundImage := rfl

@[simp]
theorem newRecord_categories (now : String) (g : Game) :
    (newRecord now g).categories = some (autoCatsNew g) := rfl

@[simp]
theorem newRecord_playTime (now : String) (g : Game) :
    (newRecord now g).playTime = some (g.playTime.getD defaultPlayTime) := rfl

@[simp]
theorem newRecord_achievements (now : String) (g : Game) :
    (newRecord now g).achievements = some (g.achievements.getD defaultAchievements) := rfl

@[simp]
theorem newRecord_lastPlayed (now : String) (g : Game) :
    (newRecord now g).lastPlayed = lastPlayedBase g := rfl

@[simp]
theorem newRecord_addedAt (now : String) (g : Game) :
    (newRecord now g).addedAt = some (jsStr g.addedAt now) := rfl

theorem jsOr_of_truthy {a : Option String} (b : Option String) (h : truthyS a = true) :
    jsOr a b = a := by simp [jsOr, h]

theorem jsOr_of_falsy {a : Option String} (b : Option String) (h : truthyS a = false) :
    jsOr a b = b := by simp [jsOr, h]

theorem jsStr_ne_empty (a : Option String) (d : String) (hd : d ≠ "") :
    jsStr a d ≠ "" := by
  cases a with
  | none => simpa [jsStr] using hd
  | some s =>
      by_cases hs : s = "" <;> simp [jsStr, hs, hd]

theorem jsStr_eq_of_truthy {a : Option String} (d : String) (h : truthyS a = true) :
    some (jsStr a d) = a := by
  cases a with
  | none => simp [truthyS] at h
  | some s =>
      have hs : s ≠ "" := by simpa [truthyS] using h
      simp [jsStr, hs]

theorem option_or_of_isSome {α : Type} {a : Option α} (b : Option α)
    (h : a.isSome) : a.or b = a := by
  obtain ⟨v, hv⟩ := Option.isSome_iff_exists.mp h
  simp [hv]

/-- Two optional string fields that the next re-merge of the same id will
bring back into agreement: either equal now, or both falsy. -/
def PendOpt (a b : Option String) : Prop :=
  a = b ∨ (truthyS a = false ∧ truthyS b = false)

/-- The part of a record that `mergeExisting` reads from the existing
record, up to differences that the next merge of the same id erases. -/
def PendRel (x y : Game) : Prop :=
  x.isFavorite = y.isFavorite ∧ x.itemType = y.itemType ∧ x.categories = y.categories ∧
  x.playTime = y.playTime ∧ x.achievements = y.achievements ∧
  PendOpt x.coverImage y.coverImage ∧ PendOpt x.backgroundImage y.backgroundImage ∧
  PendOpt x.lastPlayed y.lastPlayed

theorem jsOr_congr_pend {a a' : Option String} (b : Option String)
    (h : PendOpt a a') : jsOr a b = jsOr a' b := by
  rcases h with h | ⟨h1, h2⟩
  · rw [h]
  · rw [jsOr_of_falsy b h1, jsOr_of_falsy b h2]

theorem mergeExisting_congr_pend (now : String) (g : Game) {x y : Game}
    (h : PendRel x y) : mergeExisting now g x = mergeExisting now g y := by
  obtain ⟨h1, h2, h3, h4, h5, h6, h7, h8⟩ := h
  apply Game.ext <;>
    simp only [mergeExisting_name, mergeExisting_launcher, mergeExisting_executablePath,
      mergeExisting_installPath, mergeExisting_itemType, mergeExisting_coverImage,
      mergeExisting_backgroundImage, mergeExisting_addedAt, mergeExisting_lastPlayed,
      mergeExisting_isFavorite, mergeExisting_manualLauncherOverride,
      mergeExisting_categories, mergeExisting_playTime, mergeExisting_achievements,
      mergeExisting_statsSource, mergeExisting_playtimeData, mergeExisting_platformIds,
      mergeExisting_steamAppId, mergeExisting_epicAppName, mergeExisting_packageFamilyName,
      mergeExisting_eaId, mergeExisting_uplayId, id_mergeExisting]
  · rw [h2]
  · rw [jsOr_congr_pend _ h6]
  · rw [jsOr_congr_pend _ h7]
  · rw [jsOr_congr_pend _ h8]
  · rw [h1]
  · rw [h3]
  · rw [h4]
  · rw [h5]

/-- What run 1 guarantees about the stored record `r` for a candidate `c`
of the scan: the user-owned object fields are populated, and each
string-valued or-field of `r` is truthy unless `c`'s own contribution is
falsy too (the contribution was absorbed into the chain). -/
def Abs (c r : Game) : Prop :=
  r.isFavorite.isSome = true ∧ truthyS r.itemType = true ∧ r.categories.isSome = true ∧
  r.playTime.isSome = true ∧ r.achievements.isSome = true ∧
  (truthyS r.coverImage = false → truthyS c.coverImage = false) ∧
  (truthyS r.backgroundImage = false → truthyS c.backgroundImage = false) ∧
  (truthyS r.lastPlayed = false → truthyS (lastPlayedBase c) = false)

/-- What run 1 guarantees when `c` is the LAST candidate of the scan with
its id: every discoverable field of the stored record is exactly what a
merge of `c` rebuilds. -/
def LastAgree (c r : Game) : Prop :=
  r.id = c.id ∧ r.name = c.name ∧ r.launcher = c.launcher ∧
  r.executablePath = c.executablePath ∧ r.installPath = c.installPath ∧
  r.addedAt = c.addedAt ∧ r.manualLauncherOverride = c.manualLauncherOverride ∧
  r.statsSource = some (mkStatsSource c) ∧ r.playtimeData = some (mkPlaytimeData c) ∧
  r.platformIds = some (mkPlatformIds c) ∧
  r.steamAppId = c.steamAppId ∧ r.epicAppName = c.epicAppName ∧
  r.packageFamilyName = c.packageFamilyName ∧ r.eaId = c.eaId ∧ r.uplayId = c.uplayId ∧
  (truthyS r.coverImage = false → r.coverImage = c.coverImage) ∧
  (truthyS r.backgroundImage = false → r.backgroundImage = c.backgroundImage) ∧
  (truthyS r.lastPlayed = false → r.lastPlayed = lastPlayedBase c)

theorem pend_merge_abs (now : String) {c r : Game} (h : Abs c r) :
    PendRel (mergeExisting now c r) r := by
  obtain ⟨hf, hit, hcat, hpt, hach, hcov, hbg, hlp⟩ := h
  obtain ⟨b, hb⟩ := Option.isSome_iff_exists.mp hf
  refine ⟨?_, ?_, ?_, ?_, ?_, ?_, ?_, ?_⟩
  · simp [hb]
  · simp [jsOr_of_truthy _ hit]
  · simp [option_or_of_isSome _ hcat]
  · simp [option_or_of_isSome _ hpt]
  · simp [option_or_of_isSome _ hach]
  · cases htr : truthyS r.coverImage with
    | true => exact Or.inl (by simp [jsOr_of_truthy _ htr])
    | false =>
        refine Or.inr ⟨?_, htr⟩
        simp only [mergeExisting_coverImage, jsOr_of_falsy _ htr]
        exact hcov htr
  · cases htr : truthyS r.backgroundImage with
    | true => exact Or.inl (by simp [jsOr_of_truthy _ htr])
    | false =>
        refine Or.inr ⟨?_, htr⟩
        simp only [mergeExisting_backgroundImage, jsOr_of_falsy _ htr]
        exact hbg htr
  · cases htr : truthyS r.lastPlayed with
    | true => exact Or.inl (by simp [jsOr_of_truthy _ htr])
    | false =>
        refine Or.inr ⟨?_, htr⟩
        simp only [mergeExisting_lastPlayed, jsOr_of_falsy _ htr]
        exact hlp htr

theorem mergeExisting_fix (now : String) {c r : Game} (habs : Abs c r)
    (hla : LastAgree c r) (hadd : truthyS c.addedAt = true) :
    mergeExisting now c r = r := by
  obtain ⟨hf, hit, hcat, hpt, hach, hcov, hbg, hlp⟩ := habs
  obtain ⟨hid, hname, hlaun, hexe, hins, haddr, hman, hss, hpd, hpids, hsteam, hepic,
    hpkg, hea, hup, hcovv, hbgv, hlpv⟩ := hla
  obtain ⟨b, hb⟩ := Option.isSome_iff_exists.mp hf
  apply Game.ext
  · rw [id_mergeExisting, hid]
  · rw [mergeExisting_name, hname]
  · rw [mergeExisting_launcher, hlaun]
  · rw [mergeExisting_executablePath, hexe]
  · rw [mergeExisting_installPath, hins]
  · rw [mergeExisting_itemType, jsOr_of_truthy _ hit]
  · rw [mergeExisting_coverImage]
    cases htr : truthyS r.coverImage with
    | true => rw [jsOr_of_truthy _ htr]
    | false => rw [jsOr_of_falsy _ htr, hcovv htr]
  · rw [mergeExisting_backgroundImage]
    cases htr : truthyS r.backgroundImage with
    | true => rw [jsOr_of_truthy _ htr]
    | false => rw [jsOr_of_falsy _ htr, hbgv htr]
  · rw [mergeExisting_addedAt, jsStr_eq_of_truthy now hadd, haddr]
  · rw [mergeExisting_lastPlayed]
    cases htr : truthyS r.lastPlayed with
    | true => rw [jsOr_of_truthy _ htr]
    | false => rw [jsOr_of_falsy _ htr, hlpv htr]
  · rw [mergeExisting_isFavorite, hb]
    rfl
  · rw [mergeExisting_manualLauncherOverride, hman]
  · rw [mergeExisting_categories, option_or_of_isSome _ hcat]
  · rw [mergeExisting_playTime, option_or_of_isSome _ hpt]
  · rw [mergeExisting_achievements, option_or_of_isSome _ hach]
  · rw [mergeExisting_statsSource, hss]
  · rw [mergeExisting_playtimeData, hpd]
  · rw [mergeExisting_platformIds, hpids]
  · rw [mergeExisting_steamAppId, hsteam]
  · rw [mergeExisting_epicAppName, hepic]
  · rw [mergeExisting_packageFamilyName, hpkg]
  · rw [mergeExisting_eaId, hea]
  · rw [mergeExisting_uplayId, hup]

theorem truthyS_jsOr_false {a b : Option String} (h : truthyS (jsOr a b) = false) :
    truthyS a = false ∧ truthyS b = false := by
  cases ha : truthyS a with
  | true => rw [jsOr_of_truthy b ha] at h; rw [ha] at h; exact absurd h (by simp)
  | false => rw [jsOr_of_falsy b ha] at h; exact ⟨rfl, h⟩

theorem truthyS_itemType_merge (g e : Game) :
    truthyS (jsOr e.itemType (some (jsStr g.itemType "game"))) = true := by
  cases ha : truthyS e.itemType with
  | true => rw [jsOr_of_truthy _ ha]; exact ha
  | false =>
      rw [jsOr_of_falsy _ ha]
      simpa [truthyS] using jsStr_ne_empty g.itemType "game" (by decide)

theorem abs_mergeExisting (now : String) (c e : Game) :
    Abs c (mergeExisting now c e) := by
  refine ⟨by simp, ?_, ?_, ?_, ?_, ?_, ?_, ?_⟩
  · simpa using truthyS_itemType_merge c e
  · simp only [mergeExisting_categories]
    cases e.categories <;> simp
  · simp only [mergeExisting_playTime]
    cases e.playTime <;> simp
  · simp only [mergeExisting_achievements]
    cases e.achievements <;> simp
  · simp only [mergeExisting_coverImage]
    exact fun h => (truthyS_jsOr_false h).2
  · simp only [mergeExisting_backgroundImage]
    exact fun h => (truthyS_jsOr_false h).2
  · simp only [mergeExisting_lastPlayed]
    exact fun h => (truthyS_jsOr_false h).2

theorem abs_newRecord (now : String) {c : Game} (hf : c.isFavorite.isSome = true) :
    Abs c (newRecord now c) := by
  refine ⟨by simpa using hf, ?_, by simp, by simp, by simp, ?_, ?_, ?_⟩
  · simp only [newRecord_itemType]
    simpa [truthyS] using jsStr_ne_empty c.itemType "game" (by decide)
  · simp only [newRecord_coverImage]; exact fun h => h
  · simp only [newRecord_backgroundImage]; exact fun h => h
  · simp only [newRecord_lastPlayed]; exact fun h => h

theorem abs_after_merge (now : String) (d : Game) {c r : Game} (h : Abs c r) :
    Abs c (mergeExisting now d r) := by
  obtain ⟨hf, hit, hcat, hpt, hach, hcov, hbg, hlp⟩ := h
  refine ⟨by simp, ?_, ?_, ?_, ?_, ?_, ?_, ?_⟩
  · simpa using truthyS_itemType_merge d r
  · simp only [mergeExisting_categories]
    cases r.categories <;> simp
  · simp only [mergeExisting_playTime]
    cases r.playTime <;> simp
  · simp only [mergeExisting_achievements]
    cases r.achievements <;> simp
  · simp only [mergeExisting_coverImage]
    exact fun h => hcov (truthyS_jsOr_false h).1
  · simp only [mergeExisting_backgroundImage]
    exact fun h => hbg (truthyS_jsOr_false h).1
  · simp only [mergeExisting_lastPlayed]
    exact fun h => hlp (truthyS_jsOr_false h).1

theorem last_mergeExisting (now : String) {c : Game} (e : Game)
    (hadd : truthyS c.addedAt = true) : LastAgree c (mergeExisting now c e) := by
  refine ⟨by simp, by simp, by simp, by simp, by simp, ?_, by simp, by simp, by simp,
    by simp, by simp, by simp, by simp, by simp, by simp, ?_, ?_, ?_⟩
  · rw [mergeExisting_addedAt, jsStr_eq_of_truthy now hadd]
  · simp only [mergeExisting_coverImage]
    intro h
    rw [jsOr_of_falsy _ (truthyS_jsOr_false h).1]
  · simp only [mergeExisting_backgroundImage]
    intro h
    rw [jsOr_of_falsy _ (truthyS_jsOr_false h).1]
  · simp only [mergeExisting_lastPlayed]
    intro h
    rw [jsOr_of_falsy _ (truthyS_jsOr_false h).1]

theorem last_newRecord (now : String) {c : Game} (hadd : truthyS c.addedAt = true) :
    LastAgree c (newRecord now c) := by
  refine ⟨by simp, ?_, ?_, ?_, ?_, ?_, ?_, ?_, ?_, ?_, ?_, ?_, ?_, ?_, ?_, ?_, ?_, ?_⟩ <;>
    first
      | rfl
      | (rw [newRecord_addedAt, jsStr_eq_of_truthy now hadd])
      | exact fun _ => rfl

/-- Later candidates of the same run keep the stored record's `Abs`
relation to `c` and, when none of them has `c`'s id, keep the record
itself. -/
theorem keep_facts (now : String) (c : Game) :
    ∀ (l : List Game) (u : List Game) (i : String) (r : Game),
      firstById u i = some r → Abs c r →
      ∃ r', firstById (l.foldl (mergeInto now) u) i = some r' ∧ Abs c r' ∧
        ((∀ d ∈ l, d.id ≠ i) → r' = r) := by
  intro l
  induction l with
  | nil => exact fun u i r hr habs => ⟨r, hr, habs, fun _ => rfl⟩
  | cons d l' ih =>
      intro u i r hr habs
      by_cases hd : d.id = i
      · subst hd
        have hfind : firstById (mergeInto now u d) d.id = some (mergeExisting now d r) := by
          rw [find?_mergeInto_self now d u, hr]
        obtain ⟨r', hr', habs', _⟩ :=
          ih (mergeInto now u d) d.id (mergeExisting now d r) hfind (abs_after_merge now d habs)
        refine ⟨r', by simpa [List.foldl] using hr', habs', fun hall => ?_⟩
        exact absurd rfl (hall d (List.mem_cons_self d l'))
      · have hfind : firstById (mergeInto now u d) i = some r := by
          rw [find?_mergeInto_ne now d u i hd, hr]
        obtain ⟨r', hr', habs', hkeep⟩ := ih (mergeInto now u d) i r hfind habs
        exact ⟨r', by simpa [List.foldl] using hr', habs',
          fun hall => hkeep fun e he => hall e (List.mem_cons_of_mem d he)⟩

/-- The facts run 1 establishes about the stored record of each candidate
`c`, by its position `l₁ ++ c :: l₂` in the candidate list. -/
theorem run1_facts (now1 : String) (s : List Game) (l₁ : List Game) (c : Game)
    (l₂ : List Game) (hfav : c.isFavorite.isSome = true)
    (hadd : truthyS c.addedAt = true) :
    ∃ r, firstById (addGames now1 (l₁ ++ c :: l₂) s) c.id = some r ∧ Abs c r ∧
      ((∀ d ∈ l₂, d.id ≠ c.id) → LastAgree c r) := by
  have hfold : addGames now1 (l₁ ++ c :: l₂) s =
      l₂.foldl (mergeInto now1) (mergeInto now1 (l₁.foldl (mergeInto now1) s) c) := by
    simp [addGames, List.foldl_append, List.foldl]
  set u := l₁.foldl (mergeInto now1) s with hu
  have hfind := find?_mergeInto_self now1 c u
  rcases hcase : firstById u c.id with _ | e
  · rw [hcase] at hfind
    obtain ⟨r, hr, habs, hkeep⟩ :=
      keep_facts now1 c l₂ (mergeInto now1 u c) c.id (newRecord now1 c) hfind
        (abs_newRecord now1 hfav)
    refine ⟨r, by rw [hfold]; exact hr, habs, fun hall => ?_⟩
    rw [hkeep hall]
    exact last_newRecord now1 hadd
  · rw [hcase] at hfind
    obtain ⟨r, hr, habs, hkeep⟩ :=
      keep_facts now1 c l₂ (mergeInto now1 u c) c.id (mergeExisting now1 c e) hfind
        (abs_mergeExisting now1 c e)
    refine ⟨r, by rw [hfold]; exact hr, habs, fun hall => ?_⟩
    rw [hkeep hall]
    exact last_mergeExisting now1 e hadd

/-- Relation between run 2's intermediate state `v` and run 1's final state
`A`: pointwise equal, except that a record whose id still has a pending
candidate in `rem` may differ by `PendRel`; a pending position is the first
of its id (`forb` lists the ids of the records above). -/
inductive SR (rem : List Game) : List String → List Game → List Game → Prop
  | nil (forb : List String) : SR rem forb [] []
  | consEq (forb : List String) (x : Game) (v A : List Game) :
      SR rem (x.id :: forb) v A → SR rem forb (x :: v) (x :: A)
  | consPend (forb : List String) (x y : Game) (v A : List Game) :
      x.id = y.id → y.id ∉ forb → PendRel x y → (∃ c ∈ rem, c.id = y.id) →
      SR rem (y.id :: forb) v A → SR rem forb (x :: v) (y :: A)

theorem sr_refl (rem : List Game) : ∀ (A : List Game) (forb : List String),
    SR rem forb A A := by
  intro A
  induction A with
  | nil => exact fun forb => SR.nil forb
  | cons x A' ih =>
      intro forb
      exact SR.consEq forb x A' A' (ih (x.id :: forb))

theorem sr_drop {c : Game} {rem : List Game} :
    ∀ {forb v A}, SR (c :: rem) forb v A → c.id ∈ forb → SR rem forb v A := by
  intro forb v A hsr
  induction hsr with
  | nil forb' => exact fun _ => SR.nil _
  | consEq forb' x v' A' hsub ih =>
      intro hmem
      exact SR.consEq _ x v' A' (ih (List.mem_cons_of_mem _ hmem))
  | consPend forb' x y v' A' hxy hyf hpend hwit hsub ih =>
      intro hmem
      obtain ⟨c', hc', hcid⟩ := hwit
      rcases List.mem_cons.mp hc' with hcc | hcrem
      · subst hcc
        exact absurd (hcid ▸ hmem) hyf
      · exact SR.consPend _ x y v' A' hxy hyf hpend ⟨c', hcrem, hcid⟩
          (ih (List.mem_cons_of_mem _ hmem))

theorem sr_final {forb v A} (hsr : SR [] forb v A) : v = A := by
  induction hsr with
  | nil => rfl
  | consEq forb' x v' A' hsub ih => rw [ih]
  | consPend forb' x y v' A' hxy hyf hpend hwit hsub ih =>
      obtain ⟨c', hc', _⟩ := hwit
      exact absurd hc' (List.not_mem_nil c')

theorem sr_step (now2 : String) (c : Game) (hadd : truthyS c.addedAt = true) :
    ∀ {rem forb v A}, SR (c :: rem) forb v A → c.id ∉ forb →
      (∃ r, firstById A c.id = some r ∧ Abs c r ∧
        ((∀ d ∈ rem, d.id ≠ c.id) → LastAgree c r)) →
      SR rem forb (mergeInto now2 v c) A := by
  intro rem forb v A hsr
  induction hsr with
  | nil forb' =>
      intro _ hex
      obtain ⟨r, hr, _⟩ := hex
      simp [firstById] at hr
  | consEq forb' x v' A' hsub ih =>
      intro hforb hex
      obtain ⟨r, hr, habs, hla⟩ := hex
      by_cases hx : x.id = c.id
      · have hrx : r = x := by
          simp only [firstById] at hr
          rw [List.find?_cons_of_pos _ (by simpa using hx)] at hr
          exact (Option.some.injEq _ _ ▸ hr).symm
        rw [hrx] at habs hla
        rw [mergeInto_cons_hit now2 c x v' hx]
        by_cases hfut : ∀ d ∈ rem, d.id ≠ c.id
        · rw [mergeExisting_fix now2 habs (hla hfut) hadd]
          exact SR.consEq _ x _ _ (sr_drop hsub (by simp [hx]))
        · push_neg at hfut
          obtain ⟨d, hd, hdid⟩ := hfut
          refine SR.consPend _ _ x _ _ (by simpa using hx.symm) (fun hm => hforb (hx ▸ hm))
            (pend_merge_abs now2 habs) ⟨d, hd, by rw [hdid, hx]⟩
            (sr_drop hsub (by simp [hx]))
      · rw [mergeInto_cons_miss now2 c x v' (fun h => hx h)]
        have hr' : firstById A' c.id = some r := by
          simp only [firstById] at hr ⊢
          rwa [List.find?_cons_of_neg _ (by simpa using hx)] at hr
        have hcx : c.id ∉ x.id :: forb' := by
          simp only [List.mem_cons]
          push_neg
          exact ⟨fun h => hx (Eq.symm h), hforb⟩
        exact SR.consEq _ x _ _ (ih hcx ⟨r, hr', habs, hla⟩)
  | consPend forb' x y v' A' hxy hyf hpend hwit hsub ih =>
      intro hforb hex
      obtain ⟨r, hr, habs, hla⟩ := hex
      by_cases hy : y.id = c.id
      · have hry : r = y := by
          simp only [firstById] at hr
          rw [List.find?_cons_of_pos _ (by simpa using hy)] at hr
          exact (Option.some.injEq _ _ ▸ hr).symm
        rw [hry] at habs hla
        have hxc : x.id = c.id := hxy.trans hy
        rw [mergeInto_cons_hit now2 c x v' hxc,
          mergeExisting_congr_pend now2 c hpend]
        by_cases hfut : ∀ d ∈ rem, d.id ≠ c.id
        · rw [mergeExisting_fix now2 habs (hla hfut) hadd]
          exact SR.consEq _ y _ _ (sr_drop hsub (by simp [hy]))
        · push_neg at hfut
          obtain ⟨d, hd, hdid⟩ := hfut
          refine SR.consPend _ _ y _ _ (by simpa using hy.symm) hyf
            (pend_merge_abs now2 habs) ⟨d, hd, by rw [hdid, hy]⟩
            (sr_drop hsub (by simp [hy]))
      · have hxc : ¬ x.id = c.id := fun h => hy (hxy.symm.trans h)
        rw [mergeInto_cons_miss now2 c x v' hxc]
        have hr' : firstById A' c.id = some r := by
          simp only [firstById] at hr ⊢
          rwa [List.find?_cons_of_neg _ (by simpa using hy)] at hr
        obtain ⟨c', hc', hcid⟩ := hwit
        have hc'rem : c' ∈ rem := by
          rcases List.mem_cons.mp hc' with hcc | hcrem
          · subst hcc
            exact absurd hcid.symm hy
          · exact hcrem
        have hcy : c.id ∉ y.id :: forb' := by
          simp only [List.mem_cons]
          push_neg
          exact ⟨fun h => hy (Eq.symm h), hforb⟩
        exact SR.consPend _ x y _ _ hxy hyf hpend ⟨c', hc'rem, hcid⟩
          (ih hcy ⟨r, hr', habs, hla⟩)

/-- Replaying the whole candidate list on run 1's final state gives that
state back, provided each candidate's run-1 facts hold. -/
theorem run2_replay (now2 : String) (A : List Game) :
    ∀ (l : List Game) (v : List Game), SR l [] v A →
      (∀ l₁ c l₂, l = l₁ ++ c :: l₂ →
        truthyS c.addedAt = true ∧
        ∃ r, firstById A c.id = some r ∧ Abs c r ∧
          ((∀ d ∈ l₂, d.id ≠ c.id) → LastAgree c r)) →
      l.foldl (mergeInto now2) v = A := by
  intro l
  induction l with
  | nil => exact fun v hsr _ => sr_final hsr
  | cons c l' ih =>
      intro v hsr hgood
      obtain ⟨hadd, hex⟩ := hgood [] c l' rfl
      have hstep := sr_step now2 c hadd hsr (List.not_mem_nil c.id) hex
      have := ih (mergeInto now2 v c) hstep
        (fun l₁ c' l₂ hdec => hgood (c :: l₁) c' l₂ (by rw [hdec]; rfl))
      simpa [List.foldl] using this

/-- C1 (amended): `addGames` run twice with the identical candidate list is
idempotent whenever every candidate carries an explicit `isFavorite` and a
truthy `addedAt`; the two runs may even use different current times.
Without those fields the second run changes the stored state (see the
counterexample): it materializes `isFavorite: false` and regenerates
`addedAt` at the new time. -/
theorem addGames_idempotent_of_fields (now1 now2 : String) (cs s : List Game)
    (h : ∀ c ∈ cs, c.isFavorite.isSome = true ∧ truthyS c.addedAt = true) :
    addGames now2 cs (addGames now1 cs s) = addGames now1 cs s := by
  have := run2_replay now2 (addGames now1 cs s) cs (addGames now1 cs s)
    (sr_refl cs (addGames now1 cs s) [])
    (fun l₁ c l₂ hdec => by
      have hc : c ∈ cs := by rw [hdec]; exact List.mem_append_right l₁ (List.mem_cons_self c l₂)
      refine ⟨(h c hc).2, ?_⟩
      have := run1_facts now1 s l₁ c l₂ (h c hc).1 (h c hc).2
      rwa [← hdec] at this)
  exact this

/-- A bare scanner candidate: no `isFavorite`, no `addedAt`. -/
def c1Candidate : Game := { id := "steam_400", name := "Portal", launcher := "steam" }

/-- C1 counterexample: with a bare scanner candidate (no `isFavorite`, no
`addedAt`), running the merge twice in sequence does NOT reproduce the
state of the first run: the second run rewrites `addedAt` with its own
current time and turns the absent `isFavorite` into an explicit `false`. -/
theorem addGames_not_idempotent :
    addGames "2025-06-02T00:00:00.000Z" [c1Candidate]
        (addGames "2025-06-01T00:00:00.000Z" [c1Candidate] []) ≠
      addGames "2025-06-01T00:00:00.000Z" [c1Candidate] [] := by decide

/-- A candidate that carries both an explicit `isFavorite` and a truthy
`addedAt`. -/
def c1Complete : Game :=
  { id := "steam_400", name := "Portal", launcher := "steam"
    isFavorite := some false, addedAt := some "2024-03-01T00:00:00.000Z" }

theorem addGames_idempotent_of_fields_witness :
    (∀ c ∈ [c1Complete], c.isFavorite.isSome = true ∧ truthyS c.addedAt = true) ∧
    addGames "2025-06-02T00:00:00.000Z" [c1Complete]
        (addGames "2025-06-01T00:00:00.000Z" [c1Complete] []) =
      addGames "2025-06-01T00:00:00.000Z" [c1Complete] [] :=
  ⟨by decide, addGames_idempotent_of_fields "2025-06-01T00:00:00.000Z"
    "2025-06-02T00:00:00.000Z" [c1Complete] [] (by decide)⟩

/-- Consume the `(\.\d+)*` part of the version regex: repeated `.digits`
groups, greedily (src/gameScanner.js line 488).  Fuel-bounded recursion;
the list length always suffices. -/
def eatFracsAux : Nat → List Char → List Char
  | 0, cs => cs
  | fuel + 1, cs =>
      match cs with
      | '.' :: d :: rest =>
          if d.isDigit then eatFracsAux fuel ((d :: rest).dropWhile Char.isDigit)
          else cs
      | _ => cs

def eatFracs (cs : List Char) : List Char := eatFracsAux cs.length cs

/-- Try to match `\s*v?\d+(\.\d+)*\s*` (case-insensitive `v`) at the head
of `cs`; on success return the remainder after the match.  A successful
match always consumes at least one digit. -/
def matchVersionAt (cs : List Char) : Option (List Char) :=
  let afterWs := cs.dropWhile Char.isWhitespace
  let digitsAt : Option (List Char) :=
    match afterWs with
    | [] => none
    | c :: rest =>
        if c.isDigit then some (c :: rest)
        else if c = 'v' ∨ c = 'V' then
          match rest with
          | d :: _ => if d.isDigit then some rest else none
          | [] => none
        else none
  match digitsAt with
  | none => none
  | some ds => some ((eatFracs (ds.dropWhile Char.isDigit)).dropWhile Char.isWhitespace)

/-- Global replacement of `/\s*v?\d+(\.\d+)*\s*/gi` by `""`: scan left to
right, removing each match and continuing after it (src/gameScanner.js
line 488).  Fuel-bounded; the list length always suffices because every
match consumes at least one character. -/
def stripVerAux : Nat → List Char → List Char
  | 0, cs => cs
  | _ + 1, [] => []
  | fuel + 1, c :: cs =>
      match matchVersionAt (c :: cs) with
      | some rest => stripVerAux fuel rest
      | none => c :: stripVerAux fuel cs

def stripVersionTokens (cs : List Char) : List Char := stripVerAux cs.length cs

/-- The name normalization of `deduplicateApps` (src/gameScanner.js lines
487-490): strip version tokens, remove whitespace, lower-case.
(JS `\s` is modelled by ASCII whitespace.) -/
def normName (s : String) : String :=
  String.mk (((stripVersionTokens s.toList).filter (fun c => !c.isWhitespace)).map Char.toLower)

/-- The fixed launcher priority order (src/gameScanner.js line 495). -/
def launcherPriority : List String :=
  ["steam", "epic", "xbox", "ea", "ubisoft", "gog", "desktop", "manual"]

/-- `launcherPriority.indexOf(l)`: the JS `indexOf` yields `-1` for a
launcher outside the list. -/
def prioVal (l : String) : Int :=
  match launcherPriority.indexOf? l with
  | some n => (n : Int)
  | none => -1

/-- A deduplication candidate: the fields `deduplicateApps` reads, plus
the path to tell two discoveries of the same title apart. -/
structure AppC where
  name : String
  launcher : String
  executablePath : String := ""
deriving DecidableEq, Repr

/-- JS `Map.prototype.set` on an insertion-ordered association list:
replace in place when the key exists, append otherwise. -/
def setKey : List (String × AppC) → String → AppC → List (String × AppC)
  | [], k, a => [(k, a)]
  | (k', b) :: rest, k, a =>
      if k' = k then (k, a) :: rest else (k', b) :: setKey rest k a

/-- JS `Map.prototype.get`. -/
def getKey (m : List (String × AppC)) (k : String) : Option AppC :=
  (m.find? (fun e => e.1 = k)).map (·.2)

/-- One iteration of the `deduplicateApps` loop (src/gameScanner.js lines
485-503). -/
def dedupStep (m : List (String × AppC)) (a : AppC) : List (String × AppC) :=
  match getKey m (normName a.name) with
  | some e =>
      if prioVal a.launcher < prioVal e.launcher then setKey m (normName a.name) a
      else m
  | none => setKey m (normName a.name) a

/-- `GameScanner.deduplicateApps(apps)` (src/gameScanner.js lines 482-506):
fold the candidates through the seen-map and return
`Array.from(seen.values())` (the values in key insertion order). -/
def deduplicateApps (apps : List AppC) : List AppC :=
  (apps.foldl dedupStep []).map (·.2)

theorem getKey_setKey (m : List (String × AppC)) (k : String) (a : AppC) (k' : String) :
    getKey (setKey m k a) k' = if k' = k then some a else getKey m k' := by
  induction m with
  | nil =>
      by_cases h : k' = k
      · subst h
        simp [setKey, getKey, List.find?]
      · simp [setKey, getKey, List.find?, h, Ne.symm h]
  | cons p rest ih =>
      obtain ⟨k'', b⟩ := p
      by_cases h1 : k'' = k
      · subst h1
        by_cases h2 : k' = k''
        · subst h2
          simp [setKey, getKey, List.find?]
        · simp [setKey, getKey, List.find?, h2, Ne.symm h2]
      · by_cases h2 : k'' = k'
        · subst h2
          simp [setKey, getKey, List.find?, h1]
        · simp only [setKey, if_neg h1]
          simp only [getKey, List.find?] at ih ⊢
          have hd : (decide (k'' = k')) = false := by simpa using h2
          rw [hd]
          exact ih

theorem dedupStep_cases (m : List (String × AppC)) (a : AppC) :
    dedupStep m a = setKey m (normName a.name) a ∨ dedupStep m a = m := by
  unfold dedupStep
  cases hG : getKey m (normName a.name) with
  | none => exact Or.inl rfl
  | some e =>
      by_cases hp : prioVal a.launcher < prioVal e.launcher
      · left
        simp [hp]
      · right
        simp [hp]

theorem getKey_dedupStep (m : List (String × AppC)) (a : AppC) (k : String) :
    getKey (dedupStep m a) k =
      if normName a.name = k then
        (match getKey m k with
         | none => some a
         | some e => if prioVal a.launcher < prioVal e.launcher then some a else some e)
      else getKey m k := by
  by_cases hk : normName a.name = k
  · subst hk
    cases hG : getKey m (normName a.name) with
    | none => simp [dedupStep, hG, getKey_setKey]
    | some e =>
        by_cases hp : prioVal a.launcher < prioVal e.launcher
        · simp [dedupStep, hG, hp, getKey_setKey]
        · simp [dedupStep, hG, hp]
  · cases hG : getKey m (normName a.name) with
    | none => simp [dedupStep, hG, getKey_setKey, hk, Ne.symm hk]
    | some e =>
        by_cases hp : prioVal a.launcher < prioVal e.launcher
        · simp [dedupStep, hG, hp, getKey_setKey, hk, Ne.symm hk]
        · simp [dedupStep, hG, hp, hk]

/-- The accumulator step of the per-group best-candidate fold. -/
def pickStep (acc : Option AppC) (a : AppC) : Option AppC :=
  match acc with
  | none => some a
  | some e => if prioVal a.launcher < prioVal e.launcher then some a else some e

def pickBest (acc : Option AppC) (l : List AppC) : Option AppC :=
  l.foldl pickStep acc

theorem getKey_fold (apps : List AppC) :
    ∀ (m : List (String × AppC)) (k : String),
      getKey (apps.foldl dedupStep m) k =
        pickBest (getKey m k) (apps.filter (fun a => normName a.name = k)) := by
  induction apps with
  | nil => intro m k; rfl
  | cons a apps' ih =>
      intro m k
      by_cases hk : normName a.name = k
      · rw [List.foldl_cons, ih (dedupStep m a) k, getKey_dedupStep, if_pos hk]
        have hf : (a :: apps').filter (fun a => normName a.name = k) =
            a :: apps'.filter (fun a => normName a.name = k) := by
          simp [List.filter, hk]
        rw [hf]
        cases getKey m k with
        | none => simp [pickBest, pickStep]
        | some e => simp [pickBest, pickStep]
      · rw [List.foldl_cons, ih (dedupStep m a) k, getKey_dedupStep, if_neg hk]
        have hf : (a :: apps').filter (fun a => normName a.name = k) =
            apps'.filter (fun a => normName a.name = k) := by
          simp [List.filter, hk]
        rw [hf]

/-- Every map entry built by the fold is keyed by the normalized name of
its value. -/
theorem wf_fold (apps : List AppC) :
    ∀ (m : List (String × AppC)),
      (∀ e ∈ m, e.1 = normName e.2.name) →
      ∀ e ∈ apps.foldl dedupStep m, e.1 = normName e.2.name := by
  have hset : ∀ (m : List (String × AppC)) (a : AppC),
      (∀ e ∈ m, e.1 = normName e.2.name) →
      ∀ e ∈ setKey m (normName a.name) a, e.1 = normName e.2.name := by
    intro m a hm
    induction m with
    | nil => simp [setKey]
    | cons p rest ih =>
        obtain ⟨k', b⟩ := p
        by_cases h : k' = normName a.name
        · subst h
          intro e he
          rcases List.mem_cons.mp (by simpa [setKey] using he) with h1 | h1
          · subst h1; rfl
          · exact hm e (List.mem_cons_of_mem _ h1)
        · intro e he
          rcases List.mem_cons.mp (by simpa [setKey, h] using he) with h1 | h1
          · subst h1
            exact hm (k', b) (List.mem_cons_self _ _)
          · exact ih (fun e' he' => hm e' (List.mem_cons_of_mem _ he')) e h1
  induction apps with
  | nil => exact fun m hm => hm
  | cons a apps' ih =>
      intro m hm
      rw [List.foldl_cons]
      refine ih (dedupStep m a) ?_
      rcases dedupStep_cases m a with h | h
      · rw [h]
        exact hset m a hm
      · rw [h]
        exact hm

/-- Everything in `setKey m k a` was in `m` or is the new entry. -/
theorem mem_setKey (k : String) (a : AppC) :
    ∀ (m : List (String × AppC)) (e : String × AppC),
      e ∈ setKey m k a → e ∈ m ∨ e = (k, a) := by
  intro m
  induction m with
  | nil =>
      intro e he
      simpa [setKey] using he
  | cons q rest' ih =>
      intro e he
      obtain ⟨kq, bq⟩ := q
      by_cases hq : kq = k
      · subst hq
        rcases List.mem_cons.mp (by simpa [setKey] using he) with h2 | h2
        · exact Or.inr h2
        · exact Or.inl (List.mem_cons_of_mem _ h2)
      · rcases List.mem_cons.mp (by simpa [setKey, hq] using he) with h2 | h2
        · exact Or.inl (h2 ▸ List.mem_cons_self _ _)
        · rcases ih e h2 with h3 | h3
          · exact Or.inl (List.mem_cons_of_mem _ h3)
          · exact Or.inr h3

/-- The keys of the fold's map are distinct (JS `Map` keys are unique). -/
theorem nodup_fold (apps : List AppC) :
    ∀ (m : List (String × AppC)),
      (m.map Prod.fst).Nodup →
      ((apps.foldl dedupStep m).map Prod.fst).Nodup := by
  have hsetnd : ∀ (k : String) (a : AppC) (m : List (String × AppC)),
      (m.map Prod.fst).Nodup → ((setKey m k a).map Prod.fst).Nodup := by
    intro k a m
    induction m with
    | nil =>
        intro _
        simp [setKey]
    | cons p rest ih =>
        intro hm
        obtain ⟨k', b⟩ := p
        simp only [List.map_cons, List.nodup_cons] at hm
        by_cases h : k' = k
        · subst h
          simpa [setKey, List.nodup_cons] using hm
        · have hk' : k' ∉ (setKey rest k a).map Prod.fst := by
            intro hmem
            rcases List.mem_map.mp hmem with ⟨e, heset, hefst⟩
            rcases mem_setKey k a rest e heset with h2 | h2
            · exact hm.1 (hefst ▸ List.mem_map_of_mem Prod.fst h2)
            · rw [h2] at hefst
              exact h (by simpa using hefst.symm)
          simp only [setKey, if_neg h, List.map_cons, List.nodup_cons]
          exact ⟨hk', ih hm.2⟩
  induction apps with
  | nil => exact fun m hm => hm
  | cons a apps' ih =>
      intro m hm
      rw [List.foldl_cons]
      refine ih (dedupStep m a) ?_
      rcases dedupStep_cases m a with h | h
      · rw [h]
        exact hsetnd _ a m hm
      · rw [h]
        exact hm

theorem getKey_of_mem_nodup (m : List (String × AppC)) (k : String) (a : AppC)
    (hnd : (m.map Prod.fst).Nodup) (hmem : (k, a) ∈ m) : getKey m k = some a := by
  induction m with
  | nil => cases hmem
  | cons p rest ih =>
      obtain ⟨k', b⟩ := p
      simp only [List.map_cons, List.nodup_cons] at hnd
      rcases List.mem_cons.mp hmem with h1 | h1
      · cases h1
        simp [getKey, List.find?]
      · by_cases hk : k' = k
        · subst hk
          exact absurd (List.mem_map_of_mem Prod.fst h1) hnd.1
        · simp only [getKey, List.find?]
          have hd : (decide (k' = k)) = false := by simpa using hk
          rw [hd]
          exact ih hnd.2 h1

theorem mem_map_snd {m : List (String × AppC)} {a : AppC} :
    a ∈ m.map Prod.snd ↔ ∃ k, (k, a) ∈ m := by
  constructor
  · intro h
    obtain ⟨⟨k, b⟩, hmem, hb⟩ := List.mem_map.mp h
    exact ⟨k, by rwa [show b = a from hb] at hmem⟩
  · rintro ⟨k, hmem⟩
    exact List.mem_map.mpr ⟨(k, a), hmem, rfl⟩

theorem getKey_mem_map_snd {m : List (String × AppC)} {k : String} {a : AppC}
    (h : getKey m k = some a) : a ∈ m.map Prod.snd := by
  simp only [getKey, Option.map_eq_some'] at h
  obtain ⟨e, he, h2⟩ := h
  exact h2 ▸ List.mem_map_of_mem Prod.snd (List.mem_of_find?_eq_some he)

theorem getKey_key_eq {m : List (String × AppC)} {k : String} {a : AppC}
    (hwf : ∀ e ∈ m, e.1 = normName e.2.name) (h : getKey m k = some a) :
    k = normName a.name := by
  simp only [getKey, Option.map_eq_some'] at h
  obtain ⟨e, he, h2⟩ := h
  have h3 := List.find?_some he
  have h4 := hwf e (List.mem_of_find?_eq_some he)
  subst h2
  have h5 : e.1 = k := by simpa using h3
  rw [← h4]
  exact h5.symm

theorem mem_dedup_getKey {apps : List AppC} {a : AppC}
    (h : a ∈ deduplicateApps apps) :
    getKey (apps.foldl dedupStep []) (normName a.name) = some a := by
  obtain ⟨k, hmem⟩ := mem_map_snd.mp h
  have hk : k = normName a.name := wf_fold apps [] (by simp) (k, a) hmem
  subst hk
  exact getKey_of_mem_nodup _ _ a (nodup_fold apps [] (by simp)) hmem

theorem pickBest_some_acc (l : List AppC) :
    ∀ (e : AppC), ∃ x, pickBest (some e) l = some x := by
  induction l with
  | nil => exact fun e => ⟨e, rfl⟩
  | cons b l' ih =>
      intro e
      simp only [pickBest, List.foldl_cons]
      by_cases hp : prioVal b.launcher < prioVal e.launcher
      · simpa [pickStep, hp] using ih b
      · simpa [pickStep, hp] using ih e

theorem pickBest_mem (l : List AppC) :
    ∀ (acc : Option AppC) (x : AppC), pickBest acc l = some x →
      acc = some x ∨ x ∈ l := by
  induction l with
  | nil => exact fun acc x h => Or.inl h
  | cons b l' ih =>
      intro acc x h
      simp only [pickBest, List.foldl_cons] at h
      rcases ih (pickStep acc b) x h with h1 | h1
      · rcases acc with _ | e
        · have hbx : b = x := by simpa [pickStep] using h1
          exact Or.inr (hbx ▸ List.mem_cons_self b l')
        · simp only [pickStep] at h1
          by_cases hp : prioVal b.launcher < prioVal e.launcher
          · rw [if_pos hp] at h1
            have hbx : b = x := by simpa using h1
            exact Or.inr (hbx ▸ List.mem_cons_self b l')
          · rw [if_neg hp] at h1
            exact Or.inl h1
      · exact Or.inr (List.mem_cons_of_mem b h1)

theorem pickBest_le (l : List AppC) :
    ∀ (acc : Option AppC) (x : AppC), pickBest acc l = some x →
      (∀ b ∈ l, prioVal x.launcher ≤ prioVal b.launcher) ∧
      (∀ e, acc = some e → prioVal x.launcher ≤ prioVal e.launcher) := by
  induction l with
  | nil =>
      intro acc x h
      refine ⟨fun b hb => absurd hb (List.not_mem_nil b), fun e he => ?_⟩
      rw [he] at h
      have hex : e = x := by simpa [pickBest] using h
      subst hex
      exact le_refl _
  | cons b l' ih =>
      intro acc x h
      simp only [pickBest, List.foldl_cons] at h
      obtain ⟨h1, h2⟩ := ih (pickStep acc b) x h
      have hxb : prioVal x.launcher ≤ prioVal b.launcher ∧
          ∀ e, acc = some e → prioVal x.launcher ≤ prioVal e.launcher := by
        rcases acc with _ | e
        · exact ⟨h2 b rfl, fun e he => nomatch he⟩
        · by_cases hp : prioVal b.launcher < prioVal e.launcher
          · have hxb' := h2 b (by simp [pickStep, hp])
            refine ⟨hxb', fun e' he' => ?_⟩
            injection he' with hee
            subst hee
            exact le_of_lt (lt_of_le_of_lt hxb' hp)
          · have hxe := h2 e (by simp [pickStep, hp])
            refine ⟨le_trans hxe (not_lt.mp hp), fun e' he' => ?_⟩
            injection he' with hee
            subst hee
            exact hxe
      refine ⟨fun c hc => ?_, hxb.2⟩
      rcases List.mem_cons.mp hc with h3 | h3
      · exact h3 ▸ hxb.1
      · exact h1 c h3

theorem pickBest_unique_min (x : AppC) :
    ∀ (l : List AppC) (acc : Option AppC),
      (∀ b ∈ l, b = x ∨ prioVal x.launcher < prioVal b.launcher) →
      (acc = some x ∨ (x ∈ l ∧ (acc = none ∨
        ∃ e, acc = some e ∧ prioVal x.launcher < prioVal e.launcher))) →
      pickBest acc l = some x := by
  intro l
  induction l with
  | nil =>
      intro acc _ hacc
      rcases hacc with h | ⟨h, _⟩
      · exact h
      · cases h
  | cons b l' ih =>
      intro acc hmin hacc
      simp only [pickBest, List.foldl_cons]
      have hb := hmin b (List.mem_cons_self b l')
      rcases hacc with hax | ⟨hxmem, hrest⟩
      · subst hax
        rcases hb with hbx | hlt
        · subst hbx
          exact ih (pickStep (some b) b)
            (fun c hc => hmin c (List.mem_cons_of_mem b hc))
            (Or.inl (by simp [pickStep]))
        · exact ih (pickStep (some x) b)
            (fun c hc => hmin c (List.mem_cons_of_mem b hc))
            (Or.inl (by simp [pickStep, lt_asymm hlt]))
      · rcases hb with hbx | hlt
        · subst hbx
          have hstep : pickStep acc b = some b := by
            rcases hrest with h | ⟨e, he, hlt'⟩
            · rw [h]
              rfl
            · rw [he]
              simp [pickStep, hlt']
          exact ih (pickStep acc b)
            (fun c hc => hmin c (List.mem_cons_of_mem b hc))
            (Or.inl hstep)
        · have hxl' : x ∈ l' := by
            rcases List.mem_cons.mp hxmem with h | h
            · exact absurd (h ▸ hlt) (lt_irrefl _)
            · exact h
          refine ih (pickStep acc b)
            (fun c hc => hmin c (List.mem_cons_of_mem b hc))
            (Or.inr ⟨hxl', Or.inr ?_⟩)
          rcases hrest with h | ⟨e, he, hlt'⟩
          · refine ⟨b, ?_, hlt⟩
            rw [h]
            rfl
          · rw [he]
            simp only [pickStep]
            by_cases hp : prioVal b.launcher < prioVal e.launcher
            · exact ⟨b, by rw [if_pos hp], hlt⟩
            · exact ⟨e, by rw [if_neg hp], hlt'⟩

def eldenRingSteam : AppC :=
  ⟨"Elden Ring", "steam", "C:\\SteamLibrary\\steamapps\\common\\ELDEN RING\\eldenring.exe"⟩

def eldenRingXbox : AppC :=
  ⟨"Elden Ring", "xbox", "C:\\XboxGames\\Elden Ring\\Content\\eldenring.exe"⟩

def portalTwo : AppC := ⟨"Portal 2", "desktop", "D:\\Games\\Portal 2\\portal2.exe"⟩

def portalTwoV : AppC := ⟨"Portal 2 v1.0", "desktop", "E:\\Old\\Portal 2 v1.0\\portal2.exe"⟩

/-- C5: `deduplicateApps` keeps exactly one candidate per group of equal
normalized names; the kept candidate comes from the input and its launcher
ranks highest (smallest priority index) within its group; the two concrete
spec scenarios: "Elden Ring" steam+xbox collapse to the steam one, and
"Portal 2" / "Portal 2 v1.0" collapse to one entry. -/
theorem deduplicateApps_spec :
    (∀ apps : List AppC, (∀ x ∈ apps, x.launcher ∈ launcherPriority) →
      (∀ a ∈ deduplicateApps apps, a ∈ apps ∧
        ∀ b ∈ apps, normName b.name = normName a.name →
          prioVal a.launcher ≤ prioVal b.launcher) ∧
      (∀ a ∈ deduplicateApps apps, ∀ a' ∈ deduplicateApps apps,
        normName a.name = normName a'.name → a = a') ∧
      (∀ b ∈ apps, ∃ a ∈ deduplicateApps apps,
        normName a.name = normName b.name)) ∧
    deduplicateApps [eldenRingSteam, eldenRingXbox] = [eldenRingSteam] ∧
    deduplicateApps [portalTwo, portalTwoV] = [portalTwo] := by
  refine ⟨fun apps _ => ⟨?_, ?_, ?_⟩, by decide, by decide⟩
  · intro a ha
    have hg := mem_dedup_getKey ha
    rw [getKey_fold apps [] (normName a.name)] at hg
    rcases pickBest_mem _ none a hg with h | h
    · simp at h
    · have hap : a ∈ apps := (List.mem_filter.mp h).1
      refine ⟨hap, fun b hb hnb => ?_⟩
      exact (pickBest_le _ none a hg).1 b (List.mem_filter.mpr ⟨hb, by simpa using hnb⟩)
  · intro a ha a' ha' hnn
    have h1 := mem_dedup_getKey ha
    have h2 := mem_dedup_getKey ha'
    rw [hnn] at h1
    exact Option.some.inj (h1.symm.trans h2)
  · intro b hb
    rcases hfe : apps.filter (fun a => normName a.name = normName b.name) with _ | ⟨c, rest⟩
    · have hbf : b ∈ apps.filter (fun a => normName a.name = normName b.name) :=
        List.mem_filter.mpr ⟨hb, by simp⟩
      rw [hfe] at hbf
      exact absurd hbf (List.not_mem_nil b)
    · have hex : ∃ x, pickBest none (c :: rest) = some x := by
        simpa [pickBest, List.foldl_cons, pickStep] using pickBest_some_acc rest c
      obtain ⟨x, hx⟩ := hex
      rw [← hfe] at hx
      have hgk : getKey (apps.foldl dedupStep []) (normName b.name) = some x := by
        rw [getKey_fold apps [] (normName b.name)]
        exact hx
      exact ⟨x, getKey_mem_map_snd hgk,
        (getKey_key_eq (wf_fold apps [] (by simp)) hgk).symm⟩

/-- Two discoveries of the same title from the SAME launcher (a
launcher-priority tie). -/
def dupSteamA : AppC := ⟨"Elden Ring", "steam", "C:\\A\\eldenring.exe"⟩

def dupSteamB : AppC := ⟨"Elden Ring", "steam", "D:\\B\\eldenring.exe"⟩

/-- C6 counterexample: `deduplicateApps` is NOT order-independent: with a
launcher-priority tie it keeps the first-seen candidate, so permuting the
input changes the result. -/
theorem deduplicateApps_order_dependent :
    List.Perm [dupSteamA, dupSteamB] [dupSteamB, dupSteamA] ∧
    deduplicateApps [dupSteamA, dupSteamB] ≠ deduplicateApps [dupSteamB, dupSteamA] :=
  ⟨List.Perm.swap dupSteamB dupSteamA [], by decide⟩

/-- Every normalized-name group of `l` has a unique strictly
highest-priority candidate (no launcher-priority ties at the top). -/
def UniqueTopChoice (l : List AppC) : Prop :=
  ∀ a ∈ l, ∃ m ∈ l, normName m.name = normName a.name ∧
    ∀ b ∈ l, normName b.name = normName a.name → b ≠ m →
      prioVal m.launcher < prioVal b.launcher

instance (l : List AppC) : Decidable (UniqueTopChoice l) := by
  unfold UniqueTopChoice
  infer_instance

theorem snd_nodup (F : List (String × AppC)) (hknd : (F.map Prod.fst).Nodup)
    (hwf : ∀ e ∈ F, e.1 = normName e.2.name) : (F.map Prod.snd).Nodup := by
  induction F with
  | nil => simp
  | cons p rest ih =>
      obtain ⟨k, b⟩ := p
      simp only [List.map_cons, List.nodup_cons] at hknd ⊢
      refine ⟨?_, ih hknd.2 (fun e he => hwf e (List.mem_cons_of_mem _ he))⟩
      intro hmem
      rcases List.mem_map.mp hmem with ⟨e, he, hesnd⟩
      have h1 := hwf e (List.mem_cons_of_mem _ he)
      have h2 := hwf (k, b) (List.mem_cons_self _ _)
      have h3 : e.1 = k := by
        rw [h1, hesnd, ← h2]
      exact hknd.1 (h3 ▸ List.mem_map_of_mem Prod.fst he)

theorem dedup_nodup (ll : List AppC) : (deduplicateApps ll).Nodup :=
  snd_nodup _ (nodup_fold ll [] (by simp)) (wf_fold ll [] (by simp))

theorem mem_dedup_char (ll : List AppC) (hu : UniqueTopChoice ll) (a : AppC) :
    a ∈ deduplicateApps ll ↔ a ∈ ll ∧ ∀ b ∈ ll,
      normName b.name = normName a.name →
        b = a ∨ prioVal a.launcher < prioVal b.launcher := by
  constructor
  · intro ha
    have hg := mem_dedup_getKey ha
    rw [getKey_fold ll [] _] at hg
    rcases pickBest_mem _ none a hg with h | h
    · simp at h
    · have hal : a ∈ ll := (List.mem_filter.mp h).1
      obtain ⟨m, hm, hmn, hmin⟩ := hu a hal
      have hle := (pickBest_le _ none a hg).1
      have ham : a = m := by
        by_contra hne
        have hlt := hmin a hal rfl hne
        have hge := hle m (List.mem_filter.mpr ⟨hm, by simpa using hmn⟩)
        exact absurd (lt_of_lt_of_le hlt hge) (lt_irrefl _)
      subst ham
      refine ⟨hal, fun b hb hbn => ?_⟩
      by_cases hba : b = a
      · exact Or.inl hba
      · exact Or.inr (hmin b hb hbn hba)
  · rintro ⟨hal, htop⟩
    have hg : pickBest none
        (ll.filter (fun x => normName x.name = normName a.name)) = some a := by
      apply pickBest_unique_min a _ none
      · intro b hbf
        obtain ⟨hb, hbn⟩ := List.mem_filter.mp hbf
        exact htop b hb (by simpa using hbn)
      · exact Or.inr ⟨List.mem_filter.mpr ⟨hal, by simp⟩, Or.inl rfl⟩
    have hgk : getKey (ll.foldl dedupStep []) (normName a.name) = some a := by
      rw [getKey_fold ll []]
      exact hg
    exact getKey_mem_map_snd hgk

/-- C6 (amended): `deduplicateApps` is a pure function of its input list,
and its result is order-independent UP TO PERMUTATION whenever every
normalized-name group has a unique highest-priority candidate.  With
launcher-priority ties the kept candidate is the first seen, so the result
depends on enumeration order (see the counterexample), and even without
ties the OUTPUT ORDER follows the input order. -/
theorem deduplicateApps_perm_invariant (l l' : List AppC) (hperm : l.Perm l')
    (huniq : UniqueTopChoice l) :
    (deduplicateApps l).Perm (deduplicateApps l') := by
  have huniq' : UniqueTopChoice l' := by
    intro a ha
    obtain ⟨m, hm, h1, h2⟩ := huniq a (hperm.symm.subset ha)
    exact ⟨m, hperm.subset hm, h1, fun b hb => h2 b (hperm.symm.subset hb)⟩
  apply (List.perm_ext_iff_of_nodup (dedup_nodup l) (dedup_nodup l')).mpr
  intro a
  rw [mem_dedup_char l huniq a, mem_dedup_char l' huniq' a]
  constructor
  · rintro ⟨h1, h2⟩
    exact ⟨hperm.subset h1, fun b hb => h2 b (hperm.symm.subset hb)⟩
  · rintro ⟨h1, h2⟩
    exact ⟨hperm.symm.subset h1, fun b hb => h2 b (hperm.subset hb)⟩

theorem deduplicateApps_perm_invariant_witness :
    List.Perm [eldenRingSteam, eldenRingXbox] [eldenRingXbox, eldenRingSteam] ∧
    UniqueTopChoice [eldenRingSteam, eldenRingXbox] ∧
    (deduplicateApps [eldenRingSteam, eldenRingXbox]).Perm
      (deduplicateApps [eldenRingXbox, eldenRingSteam]) :=
  ⟨List.Perm.swap eldenRingXbox eldenRingSteam [], by decide,
    deduplicateApps_perm_invariant [eldenRingSteam, eldenRingXbox]
      [eldenRingXbox, eldenRingSteam]
      (List.Perm.swap eldenRingXbox eldenRingSteam []) (by decide)⟩

/-- `path.join(a, b)` with the Windows separator. -/
def joinPath (a b : String) : String := a ++ "\\" ++ b

/-- JS `String.prototype.toLowerCase` (ASCII). -/
def jsToLower (s : String) : String := String.mk (s.toList.map Char.toLower)

/-- The Steam CDN cover URL built for an app id (src/gameScanner.js lines
773 and 945). -/
def steamCoverUrl (appId : String) : String :=
  "https://steamcdn-a.akamaihd.net/steam/apps/" ++ appId ++ "/library_600x900_2x.jpg"

/-- The Steam CDN hero/background URL (src/gameScanner.js lines 774 and
946). -/
def steamHeroUrl (appId : String) : String :=
  "https://steamcdn-a.akamaihd.net/steam/apps/" ++ appId ++ "/library_hero.jpg"

/-- The result of the four regex extractions `parseSteamManifest` performs
on an appmanifest file's text (src/gameScanner.js lines 917-920):
`"appid" "(\d+)"`, `"name" "([^"]+)"`, `"installdir" "([^"]+)"` and
`"StateFlags" "(\d+)"` (the digits already parsed for `stateFlags`). -/
structure SteamManifest where
  appid : Option String := none
  name : Option String := none
  installdir : Option String := none
  stateFlags : Option Nat := none
deriving DecidableEq, Repr

/-- The known non-game manifests skipped by the Steam adapter
(src/gameScanner.js line 934). -/
def steamSkipApps : List String :=
  ["Steamworks Common Redistributables", "Steam Linux Runtime"]

/-- `GameScanner.parseSteamManifest` (src/gameScanner.js lines 914-948)
applied to the extracted manifest fields: require appid and name, require
StateFlags = 4 (fully installed, defaulting to 0 when absent), skip the
known non-game manifests, and build the candidate record. -/
def parseSteamManifest (m : SteamManifest) (steamAppsPath : String) : Option Game :=
  match m.appid, m.name with
  | some appId, some nm =>
      if m.stateFlags.getD 0 ≠ 4 then none
      else if nm ∈ steamSkipApps then none
      else
        some { id := "steam_" ++ appId
               name := nm
               launcher := "steam"
               executablePath :=
                 some (joinPath (joinPath steamAppsPath "common") (m.installdir.getD nm))
               installPath :=
                 some (joinPath (joinPath steamAppsPath "common") (m.installdir.getD nm))
               itemType := some "game"
               steamAppId := some appId
               coverImage := some (steamCoverUrl appId)
               backgroundImage := some (steamHeroUrl appId) }
  | _, _ => none

/-- The manifest loop of `GameScanner.scanSteam` over one steamapps
directory (src/gameScanner.js lines 841-856): parse every manifest and
keep the non-null results. -/
def scanSteamManifests (steamAppsPath : String) (ms : List SteamManifest) : List Game :=
  ms.filterMap (fun m => parseSteamManifest m steamAppsPath)

/-- A manifest of an installed game. -/
def hl2Manifest : SteamManifest :=
  { appid := some "220", name := some "Half-Life 2"
    installdir := some "Half-Life 2", stateFlags := some 4 }

/-- A manifest whose installation-state flag is not "fully installed". -/
def portalManifest : SteamManifest :=
  { appid := some "400", name := some "Portal"
    installdir := some "Portal", stateFlags := some 2 }

/-- The candidate the Steam adapter produces for `hl2Manifest`. -/
def hl2Candidate : Game :=
  { id := "steam_220", name := "Half-Life 2", launcher := "steam"
    executablePath :=
      some "C:\\Program Files (x86)\\Steam\\steamapps\\common\\Half-Life 2"
    installPath :=
      some "C:\\Program Files (x86)\\Steam\\steamapps\\common\\Half-Life 2"
    itemType := some "game", steamAppId := some "220"
    coverImage := some (steamCoverUrl "220")
    backgroundImage := some (steamHeroUrl "220") }

/-- C8: the Steam adapter keeps only manifests with an app id and a name
whose StateFlags equal 4 (fully installed) and whose name is not one of
the known non-game manifests; every candidate it returns has
`itemType="game"`, `launcher="steam"`, `id="steam_<appid>"` and
`steamAppId` equal to the manifest's appid; and the two-manifest scenario
(installed "Half-Life 2", not-installed "Portal") yields exactly the
"Half-Life 2" candidate with its native app id. -/
theorem parseSteamManifest_spec :
    (∀ (m : SteamManifest) (p : String) (g : Game),
      parseSteamManifest m p = some g →
      ∃ a n, m.appid = some a ∧ m.name = some n ∧ m.stateFlags = some 4 ∧
        n ∉ steamSkipApps ∧ g.itemType = some "game" ∧ g.launcher = "steam" ∧
        g.id = "steam_" ++ a ∧ g.steamAppId = some a ∧ g.name = n) ∧
    scanSteamManifests "C:\\Program Files (x86)\\Steam\\steamapps"
        [hl2Manifest, portalManifest] = [hl2Candidate] := by
  refine ⟨?_, by decide⟩
  intro m p g h
  rcases hA : m.appid with _ | a
  · simp [parseSteamManifest, hA] at h
  rcases hN : m.name with _ | n
  · simp [parseSteamManifest, hA, hN] at h
  simp only [parseSteamManifest, hA, hN] at h
  by_cases hsf : m.stateFlags.getD 0 = 4
  · by_cases hskip : n ∈ steamSkipApps
    · simp [hsf, hskip] at h
    · simp only [hsf, hskip, ne_eq, not_true_eq_false, if_false, if_neg hskip,
        not_false_eq_true, if_true, Option.some.injEq] at h
      have hsf4 : m.stateFlags = some 4 := by
        rcases hS : m.stateFlags with _ | k
        · rw [hS] at hsf
          simp at hsf
        · rw [hS] at hsf
          simp only [Option.getD_some] at hsf
          rw [hsf]
      refine ⟨a, n, rfl, rfl, hsf4, hskip, ?_, ?_, ?_, ?_, ?_⟩ <;> rw [← h]
  · simp [hsf] at h

/-- One row-extension step of the Levenshtein DP (inner `j` loop of
src/gameScanner.js lines 810-820): walk `s1` with the previous row,
carrying the diagonal and left cells. -/
def levGo (c2 : Char) : List Char → List Nat → Nat → Nat → List Nat
  | [], _, _, _ => []
  | _ :: _, [], _, _ => []
  | c1 :: cs, up :: prest, diag, left =>
      let cur := if c2 = c1 then diag else Nat.min (Nat.min diag left) up + 1
      cur :: levGo c2 cs prest up cur

/-- Build matrix row `i` from row `i-1` (src/gameScanner.js lines 809-821);
`matrix[i][0] = i`. -/
def levRowNext (c2 : Char) (s1 : List Char) (prev : List Nat) (iVal : Nat) : List Nat :=
  iVal :: levGo c2 s1 prev.tail (prev.headD 0) iVal

/-- `GameScanner.levenshteinDistance(str1, str2)` (src/gameScanner.js
lines 798-824): the DP over rows indexed by `str2`, returning
`matrix[str2.length][str1.length]`. -/
def levenshteinDistance (str1 str2 : String) : Nat :=
  let s1 := str1.toList
  let firstRow := List.range (s1.length + 1)
  let final := str2.toList.foldl
    (fun acc c2 => (levRowNext c2 s1 acc.1 (acc.2 + 1), acc.2 + 1)) (firstRow, 0)
  final.1.getLastD 0

/-- `GameScanner.calculateSimilarity(str1, str2)` (src/gameScanner.js
lines 787-795), with the JS floating division modelled exactly in `ℚ`. -/
def calculateSimilarity (str1 str2 : String) : ℚ :=
  let longer := if str1.length > str2.length then str1 else str2
  let shorter := if str1.length > str2.length then str2 else str1
  if longer.length = 0 then 1
  else ((longer.length : ℚ) - levenshteinDistance longer shorter) / longer.length

/-- The first item of the store-search response as the PowerShell helper
returns it: `id` absent/0 means no usable result. -/
structure StoreItem where
  id : Option Nat
  name : String
deriving DecidableEq, Repr

/-- The metadata `fetchOnlineMetadata` returns on acceptance
(src/gameScanner.js lines 770-775). -/
structure FoundMeta where
  name : String
  cover : String
  background : String
deriving DecidableEq, Repr

/-- The pure decision core of `GameScanner.fetchOnlineMetadata`
(src/gameScanner.js lines 756-776): given the parsed first store item,
require a truthy `item.id`, compute the similarity between the returned
title and the queried name (`originalName || searchTerm`, lower-cased),
reject below 0.6, and otherwise build the artwork URLs. -/
def metadataDecision (item : StoreItem) (searchTerm originalName : String) :
    Option FoundMeta :=
  match item.id with
  | none => none
  | some appId =>
      if appId = 0 then none
      else
        if calculateSimilarity (jsToLower item.name)
            (jsToLower (if originalName = "" then searchTerm else originalName)) <
            (3 : ℚ) / 5 then none
        else some ⟨item.name, steamCoverUrl (toString appId), steamHeroUrl (toString appId)⟩

/-- `GameScanner.fetchWithRetry`'s reconciliation of a lookup result into
the candidate (src/gameScanner.js lines 704-719): artwork fields are set
on success and the candidate is returned unchanged on `null`. -/
def applyArtworkResult (g : Game) (r : Option FoundMeta) : Game :=
  match r with
  | some md => { g with coverImage := some md.cover, backgroundImage := some md.background }
  | none => g

/-- C7: a returned title is accepted iff the normalized edit-distance
similarity with the queried name is at least 0.6; below the threshold the
result is discarded and the candidate's artwork fields stay untouched;
the "Counter-Strike 2" / "Counter Culture" spec examples behave as
stated. -/
theorem similarity_gate_spec :
    (∀ (it : StoreItem) (q orig : String) (appId : Nat),
      it.id = some appId → appId ≠ 0 →
      ((metadataDecision it q orig).isSome = true ↔
        ¬ calculateSimilarity (jsToLower it.name)
            (jsToLower (if orig = "" then q else orig)) < (3 : ℚ) / 5)) ∧
    (∀ (it : StoreItem) (q orig : String) (g : Game),
      metadataDecision it q orig = none →
      applyArtworkResult g (metadataDecision it q orig) = g) ∧
    (metadataDecision ⟨some 730, "Counter-Strike 2"⟩
        "Counter-Strike" "Counter-Strike").isSome = true ∧
    metadataDecision ⟨some 999, "Counter Culture"⟩
        "Counter-Strike" "Counter-Strike" = none := by
  refine ⟨?_, ?_, ?_, ?_⟩
  · intro it q orig appId hid h0
    simp only [metadataDecision, hid, if_neg h0]
    by_cases hs : calculateSimilarity (jsToLower it.name)
        (jsToLower (if orig = "" then q else orig)) < (3 : ℚ) / 5
    · simp [hs]
    · simp [hs]
  · intro it q orig g h
    rw [h]
    rfl
  · have hl1 : jsToLower "Counter-Strike 2" = "counter-strike 2" := by decide
    have hl2 : jsToLower "Counter-Strike" = "counter-strike" := by decide
    have hd : levenshteinDistance "counter-strike 2" "counter-strike" = 2 := by decide
    have ha : ("counter-strike 2" : String).length = 16 := rfl
    have hb : ("counter-strike" : String).length = 14 := rfl
    have hacc : ¬ calculateSimilarity "counter-strike 2" "counter-strike" < (3 : ℚ) / 5 := by
      norm_num [calculateSimilarity, ha, hb, hd]
    simp only [metadataDecision, ite_self, hl1, hl2]
    rw [if_neg (show ¬ (730 : Nat) = 0 by norm_num), if_neg hacc]
    rfl
  · have hl1 : jsToLower "Counter Culture" = "counter culture" := by decide
    have hl2 : jsToLower "Counter-Strike" = "counter-strike" := by decide
    have hd : levenshteinDistance "counter culture" "counter-strike" = 7 := by decide
    have ha : ("counter culture" : String).length = 15 := rfl
    have hb : ("counter-strike" : String).length = 14 := rfl
    have hrej : calculateSimilarity "counter culture" "counter-strike" < (3 : ℚ) / 5 := by
      norm_num [calculateSimilarity, ha, hb, hd]
    simp only [metadataDecision, ite_self, hl1, hl2]
    rw [if_neg (show ¬ (999 : Nat) = 0 by norm_num), if_pos hrej]

/-- `hay.includes(sub)` on character lists. -/
def containsChars (hay sub : List Char) : Bool :=
  hay.tails.any (fun t => sub.isPrefixOf t)

/-- JS `String.prototype.includes`. -/
def containsStr (hay sub : String) : Bool :=
  containsChars hay.toList sub.toList

/-- Test of a regex `/a.*b/`: an occurrence of `a` followed (anywhere
later) by an occurrence of `b`. -/
def containsThen (hay a b : String) : Bool :=
  hay.toList.tails.any
    (fun t => a.toList.isPrefixOf t && containsChars (t.drop a.toList.length) b.toList)

/-- JS `String.prototype.startsWith` / a `/^pat/` regex test. -/
def startsWithStr (hay pre : String) : Bool :=
  pre.toList.isPrefixOf hay.toList

/-- A regex word character `[A-Za-z0-9_]`. -/
def isWordChar (c : Char) : Bool := c.isAlpha || c.isDigit || c = '_'

/-- Whether `w` occurs in `cs` with word boundaries on both sides
(`/\bw\b/`); `prev` is the character before the current position. -/
def hasWordAt (w : List Char) : Option Char → List Char → Bool
  | _, [] => false
  | prev, c :: rest =>
      (w.isPrefixOf (c :: rest) &&
        (match prev with
         | none => true
         | some p => !isWordChar p) &&
        (match (c :: rest).drop w.length with
         | [] => true
         | d :: _ => !isWordChar d)) ||
      hasWordAt w (some c) rest

/-- Test of `/\bw\b/` on a string. -/
def hasWordPat (s w : String) : Bool := hasWordAt w.toList none s.toList

/-- A lower-case hex digit `[a-f0-9]`. -/
def isHexDigitL (c : Char) : Bool := c.isDigit || ('a' ≤ c && c ≤ 'f')

/-- `/^unins\d*\.exe$/` (src/gameScanner.js line 336). -/
def matchUninsPat (n : List Char) : Bool :=
  if [ 'u', 'n', 'i', 'n', 's' ].isPrefixOf n then
    let rest := (n.drop 5).dropWhile Char.isDigit
    rest == [ '.', 'e', 'x', 'e' ]
  else false

/-- `/^[a-f0-9]{8,}\.exe$/i` on the lower-cased name (line 425). -/
def matchHexExe (n : List Char) : Bool :=
  let hex := n.takeWhile isHexDigitL
  hex.length ≥ 8 && n.drop hex.length == [ '.', 'e', 'x', 'e' ]

/-- `/^[a-f0-9-]{36}\.exe$/i` on the lower-cased name (line 426). -/
def matchGuidExe (n : List Char) : Bool :=
  n.length == 40 && (n.take 36).all (fun c => isHexDigitL c || c = '-') &&
    n.drop 36 == [ '.', 'e', 'x', 'e' ]

/-- `/^\d{10,}\.exe$/i` on the lower-cased name (line 427). -/
def matchNumExe (n : List Char) : Bool :=
  let ds := n.takeWhile Char.isDigit
  ds.length ≥ 10 && n.drop ds.length == [ '.', 'e', 'x', 'e' ]

/-- The GUID-shaped-segment test on the lower-cased folder (line 310):
eight hex characters, a dash, four hex characters, a dash, anywhere. -/
def guidFolderPat (f : List Char) : Bool :=
  f.tails.any (fun t =>
    (t.take 8).length == 8 && (t.take 8).all isHexDigitL &&
    (t.drop 8).take 1 == [ '-' ] &&
    ((t.drop 9).take 4).length == 4 && ((t.drop 9).take 4).all isHexDigitL &&
    (t.drop 13).take 1 == [ '-' ])

/-- `/[a-z0-9_]{13,}/` on the lower-cased folder (line 311). -/
def appxHashPat (f : List Char) : Bool :=
  f.tails.any (fun t =>
    (t.take 13).length == 13 && (t.take 13).all (fun c => c.isLower || c.isDigit || c = '_'))

/-- The hard system-folder exclusions (src/gameScanner.js lines 296-306). -/
def systemFolders : List String :=
  ["c:\\windows", "c:\\programdata", "c:\\system volume information",
   "c:\\$recycle.bin", "winsx", "system32", "syswow64", "drivers", "winsxs"]

/-- The utility-folder exclusions (lines 316-330). -/
def utilityFolders : List String :=
  ["redist", "redistributables", "_commonredist", "support", "tools", "bin",
   "utils", "utilities", "prerequisites", "directx", "vcredist", "dotnet", "physx"]

/-- The Microsoft system-app name fragments (line 312). -/
def microsoftSystemApps : List String :=
  ["searchui", "cortana", "edge", "dwm", "iexplore", "winrar", "windows.ui"]

/-- The exactly-matched generic names (line 430); matched against the
ORIGINAL (case-sensitive) file name. -/
def genericNames : List String :=
  ["app.exe", "main.exe", "run.exe", "start.exe", "launcher.exe", "game.exe"]

/-- The common tool keywords (lines 434-440). -/
def toolKeywords : List String :=
  ["winrar", "winzip", "7z", "notepad", "paint", "calc", "explorer",
   "powershell", "cmd", "bat", "dll", "sys", "drv", "scr",
   "vbscript", "javascript", "perl", "python", "java",
   "installer", "editor", "viewer", "converter", "codec",
   "plugin", "extension", "module", "addin"]

/-- The trusted launcher-managed game folders (lines 444-451). -/
def trustedFolders : List String :=
  ["steamapps\\common", "epic games", "xboxgames", "gog games", "ea games",
   "ubisoft game launcher"]

/-- The always-accept application whitelist (lines 455-460). -/
def knownApps : List String :=
  ["spotify", "discord", "slack", "vscode", "chrome", "firefox",
   "chatgpt", "telegram", "whatsapp", "zoom", "teams", "obs",
   "photoshop", "illustrator", "premiere", "aftereffects",
   "notion", "obsidian", "blender", "unity", "unreal", "code"]

/-- The comprehensive name blacklist (src/gameScanner.js lines 334-422):
each regex rendered as a starts-with, contains, contains-then,
word-boundary or anchored-shape test on the lower-cased name. -/
def blacklistHit (name : String) : Bool :=
  matchUninsPat name.toList ||
  startsWithStr name "setup" ||
  containsStr name "installer" ||
  startsWithStr name "patch" || startsWithStr name "update" || startsWithStr name "upgrade" ||
  containsStr name "autoupdate" ||
  containsStr name "delta.exe" ||
  containsStr name "helper" ||
  containsThen name "launcher" "helper" ||
  containsStr name "vcredist" || containsStr name "dotnet" || containsStr name "runtime" ||
  containsThen name "crash" "report" ||
  containsStr name "anticheat" || containsStr name "antivirus" ||
  containsStr name "firewall" || containsStr name "security" ||
  containsStr name "scanner" || containsStr name "malware" ||
  containsStr name "overlay" || containsStr name "service.exe" || containsStr name "svchost" ||
  containsStr name "redistributable" || containsStr name "framework" ||
  containsStr name "shortcut" || containsStr name "readme" || containsStr name "license" ||
  containsStr name "diagnostic" || containsStr name "troubleshoot" ||
  containsStr name "support" ||
  containsStr name "config" || containsStr name "handler" || containsStr name "dialog" ||
  containsStr name "client" ||
  hasWordPat name "win" ||
  containsStr name "x64" || containsStr name "x86" ||
  containsStr name "setup" ||
  containsStr name "benchmark" || containsStr name "bootstrapper" ||
  containsStr name "plugin" || containsStr name "transcoder" ||
  containsStr name "fossilize" || containsStr name "query" ||
  containsStr name "cleanup" || containsStr name "adapt" || containsStr name "instance" ||
  containsStr name "install" || containsStr name "placeholder" ||
  containsStr name "detector" || containsStr name "selector" ||
  containsStr name "realtek" || containsStr name "addon" || containsStr name "host" ||
  containsStr name "server" || containsStr name "daemon" || containsStr name "agent" ||
  containsStr name "debug" || containsStr name "test" || containsStr name "demo" ||
  containsStr name "tool" || containsStr name "utility" || containsStr name "manager" ||
  containsStr name "monitor" || containsStr name "console" ||
  containsStr name "redist" || containsStr name "directx" || containsStr name "physx" ||
  containsThen name "steam" "service" || containsThen name "origin" "service" ||
  containsStr name "eac" || containsStr name "battleye" ||
  containsStr name "vanguard" || containsStr name "punkbuster"

/-- Count of alphabetic characters (`(name.match(/[a-z]/gi) || []).length`,
line 470). -/
def alphaCount (n : List Char) : Nat := (n.filter (fun c => c.isAlpha)).length

/-- Count of digits (line 474). -/
def digitCount (n : List Char) : Nat := (n.filter (fun c => c.isDigit)).length

/-- Count of characters outside `[a-z0-9_\-\.]` on the lower-cased name
(line 475). -/
def specialCount (n : List Char) : Nat :=
  (n.filter (fun c => !(c.isLower || c.isDigit || c = '_' || c = '-' || c = '.'))).length

/-- `GameScanner.isValidAppName(exeName, folderPath)` (src/gameScanner.js
lines 290-480), with each decision step in source order.  The
alphabetic-ratio test `alpha/length < 0.6` is rendered exactly as the
integer inequality `5*alpha < 3*length`. -/
def isValidAppName (exeName folderPath : String) : Bool :=
  let name := jsToLower exeName
  let folder := jsToLower folderPath
  if systemFolders.any (fun sys => containsStr folder sys) then false
  else if guidFolderPat folder.toList then false
  else if appxHashPat folder.toList && containsStr folder "microsoft" then false
  else if microsoftSystemApps.any (fun frag => containsStr name frag) then false
  else if utilityFolders.any (fun util => containsStr folder util) then false
  else if blacklistHit name then false
  else if matchHexExe name.toList then false
  else if matchGuidExe name.toList then false
  else if matchNumExe name.toList then false
  else if genericNames.contains exeName then false
  else if toolKeywords.any (fun tk => containsStr name tk) then false
  else if knownApps.any (fun ka => containsStr name ka) then true
  else if name.length < 4 then false
  else if trustedFolders.any (fun tf => containsStr folder tf) then true
  else if 5 * alphaCount name.toList < 3 * name.length then false
  else if digitCount name.toList > 5 ∨ specialCount name.toList > 3 then false
  else true

/-- C4 counterexample: the whitelist does NOT override the hard folder
exclusions, which run first: `isValidAppName("Spotify.exe", path)` is
false for a system folder path, refuting "returns true for every
containing-directory path". -/
theorem isValidAppName_spotify_system32 :
    isValidAppName "Spotify.exe" "C:\\Windows\\System32" = false := by decide

/-- C4 (amended): for every containing-directory path that none of the
folder-level hard exclusions match (system folders, GUID-shaped segment,
AppX-hash-plus-microsoft, utility folders),
`isValidAppName("Spotify.exe", path)` returns true: the whitelist
short-circuits all remaining NAME heuristics (length, digit/alpha ratio,
noise density), though not the folder exclusions. -/
theorem isValidAppName_spotify_whitelisted (folderPath : String)
    (h1 : systemFolders.any (fun sys => containsStr (jsToLower folderPath) sys) = false)
    (h2 : guidFolderPat (jsToLower folderPath).toList = false)
    (h3 : (appxHashPat (jsToLower folderPath).toList &&
      containsStr (jsToLower folderPath) "microsoft") = false)
    (h4 : utilityFolders.any (fun util => containsStr (jsToLower folderPath) util) = false) :
    isValidAppName "Spotify.exe" folderPath = true := by
  have hm : (microsoftSystemApps.any fun frag =>
      containsStr (jsToLower "Spotify.exe") frag) = false := by decide
  have hb : blacklistHit (jsToLower "Spotify.exe") = false := by decide
  have hhex : matchHexExe (jsToLower "Spotify.exe").toList = false := by decide
  have hguid : matchGuidExe (jsToLower "Spotify.exe").toList = false := by decide
  have hnum : matchNumExe (jsToLower "Spotify.exe").toList = false := by decide
  have hgen : genericNames.contains "Spotify.exe" = false := by decide
  have htool : (toolKeywords.any fun tk =>
      containsStr (jsToLower "Spotify.exe") tk) = false := by decide
  have hknown : (knownApps.any fun ka =>
      containsStr (jsToLower "Spotify.exe") ka) = true := by decide
  simp [isValidAppName, h1, h2, h3, h4, hm, hb, hhex, hguid, hnum, hgen, htool, hknown]
  exact ⟨h2, Bool.and_eq_false_iff.mp h3, hhex, hguid, hnum, by simpa using hgen⟩

theorem isValidAppName_spotify_whitelisted_witness :
    (systemFolders.any (fun sys => containsStr (jsToLower "D:\\Apps\\Spotify") sys) = false ∧
      guidFolderPat (jsToLower "D:\\Apps\\Spotify").toList = false ∧
      (appxHashPat (jsToLower "D:\\Apps\\Spotify").toList &&
        containsStr (jsToLower "D:\\Apps\\Spotify") "microsoft") = false ∧
      utilityFolders.any
        (fun util => containsStr (jsToLower "D:\\Apps\\Spotify") util) = false) ∧
    isValidAppName "Spotify.exe" "D:\\Apps\\Spotify" = true :=
  ⟨⟨by decide, by decide, by decide, by decide⟩,
    isValidAppName_spotify_whitelisted "D:\\Apps\\Spotify"
      (by decide) (by decide) (by decide) (by decide)⟩

/-- An abstract directory entry as `fs.readdirSync` + `statSync` see it:
a file with its byte size, or a subdirectory with its entries. -/
inductive FSEntry where
  | file (name : String) (size : Nat)
  | dir (name : String) (entries : List FSEntry)
deriving Repr

/-- JS `String.prototype.endsWith`. -/
def endsWithStr (s suf : String) : Bool := suf.toList.isSuffixOf s.toList

/-- A collected executable candidate `{path, size}` (src/gameScanner.js
lines 1225-1228). -/
structure Cand where
  path : String
  size : Nat
deriving DecidableEq, Repr

/-- `GameScanner.findCandidatesRecursive(directory, depth)`
(src/gameScanner.js lines 1257-1281): collect every `.exe` file accepted
by the classifier — with NO size floor — recursing into subdirectories
while `depth > 0`. -/
def findCandidatesRecursive (d : String) (depth : Nat) : List FSEntry → List Cand
  | [] => []
  | FSEntry.file nm sz :: rest =>
      (if endsWithStr nm ".exe" && isValidAppName nm d then [⟨joinPath d nm, sz⟩] else [])
        ++ findCandidatesRecursive d depth rest
  | FSEntry.dir nm sub :: rest =>
      (if depth > 0 then findCandidatesRecursive (joinPath d nm) (depth - 1) sub else [])
        ++ findCandidatesRecursive d depth rest
termination_by es => sizeOf es

/-- The candidate-collection phase of `GameScanner.findExecutables`
(src/gameScanner.js lines 1202-1239): top-level `.exe` files must pass the
classifier AND the 0.5 MB size floor (`size/(1024*1024) >= 0.5`, i.e.
`size >= 524288`); subdirectories contribute via
`findCandidatesRecursive` (no floor). -/
def findExecutablesCands (d : String) (depth : Nat) : List FSEntry → List Cand
  | [] => []
  | FSEntry.file nm sz :: rest =>
      (if endsWithStr nm ".exe" && isValidAppName nm d then
        if sz ≥ 524288 then [⟨joinPath d nm, sz⟩] else []
      else [])
        ++ findExecutablesCands d depth rest
  | FSEntry.dir nm sub :: rest =>
      (if depth > 0 then findCandidatesRecursive (joinPath d nm) (depth - 1) sub else [])
        ++ findExecutablesCands d depth rest

/-- The selection phase (src/gameScanner.js lines 1243-1251): stable
descending sort by size and take the head — i.e. the first candidate of
maximal size. -/
def pickLargest (l : List Cand) : Option Cand :=
  l.foldl
    (fun acc c =>
      match acc with
      | none => some c
      | some b => if c.size > b.size then some c else some b) none

/-- `GameScanner.findExecutables(directory, depth = 2)` (src/gameScanner.js
lines 1202-1254): the single largest surviving candidate's path, or
nothing. -/
def findExecutables (d : String) (es : List FSEntry) (depth : Nat := 2) : List String :=
  match pickLargest (findExecutablesCands d depth es) with
  | some c => [c.path]
  | none => []

theorem pickLargest_some_acc (l : List Cand) :
    ∀ (e : Cand), ∃ x, (l.foldl
      (fun acc c =>
        match acc with
        | none => some c
        | some b => if c.size > b.size then some c else some b) (some e)) = some x := by
  induction l with
  | nil => exact fun e => ⟨e, rfl⟩
  | cons b l' ih =>
      intro e
      simp only [List.foldl_cons]
      by_cases hp : b.size > e.size
      · simpa [hp] using ih b
      · simpa [hp] using ih e

theorem pickLargest_spec (l : List Cand) :
    ∀ (acc : Option Cand) (x : Cand),
      (l.foldl
        (fun acc c =>
          match acc with
          | none => some c
          | some b => if c.size > b.size then some c else some b) acc) = some x →
      ((acc = some x ∨ x ∈ l) ∧
        (∀ c ∈ l, c.size ≤ x.size) ∧
        (∀ e, acc = some e → e.size ≤ x.size)) := by
  induction l with
  | nil =>
      intro acc x h
      simp only [List.foldl_nil] at h
      refine ⟨Or.inl h, fun c hc => absurd hc (List.not_mem_nil c), fun e he => ?_⟩
      rw [he] at h
      injection h with hee
      subst hee
      exact le_refl _
  | cons b l' ih =>
      intro acc x h
      simp only [List.foldl_cons] at h
      obtain ⟨hmem, hmax, hacc⟩ := ih _ x h
      have hK1 : b.size ≤ x.size := by
        rcases hA : acc with _ | e
        · subst hA
          exact hacc b rfl
        · subst hA
          by_cases hp : b.size > e.size
          · exact hacc b (by simp [hp])
          · exact le_trans (Nat.le_of_not_lt hp) (hacc e (by simp [hp]))
      refine ⟨?_, ?_, ?_⟩
      · rcases hmem with h1 | h1
        · rcases hA : acc with _ | e
          · subst hA
            have hbx : b = x := by simpa using h1
            exact Or.inr (hbx ▸ List.mem_cons_self b l')
          · subst hA
            by_cases hp : b.size > e.size
            · have hbx : b = x := by simpa [hp] using h1
              exact Or.inr (hbx ▸ List.mem_cons_self b l')
            · have hex : e = x := by simpa [hp] using h1
              exact Or.inl (congrArg some hex)
        · exact Or.inr (List.mem_cons_of_mem b h1)
      · intro c hc
        rcases List.mem_cons.mp hc with h1 | h1
        · exact h1 ▸ hK1
        · exact hmax c h1
      · intro e he
        subst he
        by_cases hp : b.size > e.size
        · exact le_trans (le_of_lt hp) (hacc b (by simp [hp]))
        · exact hacc e (by simp [hp])

/-- Every candidate collected by the recursive walker passed the `.exe`
filter and the classifier for its own containing directory.  (Note: no
size floor here.) -/
theorem mem_findCandidatesRecursive :
    ∀ (n : Nat) (es : List FSEntry), sizeOf es ≤ n →
      ∀ (d : String) (depth : Nat) (c : Cand),
        c ∈ findCandidatesRecursive d depth es →
        ∃ nm sub sz, c = ⟨joinPath sub nm, sz⟩ ∧ endsWithStr nm ".exe" = true ∧
          isValidAppName nm sub = true := by
  intro n
  induction n with
  | zero =>
      intro es hsz d depth c hc
      cases es with
      | nil => simp [findCandidatesRecursive] at hc
      | cons e rest =>
          exfalso
          have : 0 < sizeOf (e :: rest) := by
            simp only [List.cons.sizeOf_spec]
            omega
          omega
  | succ n ihn =>
      intro es hsz d depth c hc
      cases es with
      | nil => simp [findCandidatesRecursive] at hc
      | cons e rest =>
          cases e with
          | file nm sz =>
              have hrest : sizeOf rest ≤ n := by
                simp only [List.cons.sizeOf_spec, FSEntry.file.sizeOf_spec] at hsz
                omega
              simp only [findCandidatesRecursive] at hc
              rcases List.mem_append.mp hc with h1 | h1
              · by_cases hok : (endsWithStr nm ".exe" && isValidAppName nm d) = true
                · rw [if_pos hok] at h1
                  have hce : c = ⟨joinPath d nm, sz⟩ := by simpa using h1
                  obtain ⟨he, hv⟩ := Bool.and_eq_true_iff.mp hok
                  exact ⟨nm, d, sz, hce, he, hv⟩
                · rw [if_neg hok] at h1
                  simp at h1
              · exact ihn rest hrest d depth c h1
          | dir nm sub =>
              have hrest : sizeOf rest ≤ n := by
                simp only [List.cons.sizeOf_spec, FSEntry.dir.sizeOf_spec] at hsz
                omega
              have hsub : sizeOf sub ≤ n := by
                simp only [List.cons.sizeOf_spec, FSEntry.dir.sizeOf_spec] at hsz
                omega
              simp only [findCandidatesRecursive] at hc
              rcases List.mem_append.mp hc with h1 | h1
              · by_cases hd0 : depth > 0
                · rw [if_pos hd0] at h1
                  exact ihn sub hsub (joinPath d nm) (depth - 1) c h1
                · rw [if_neg hd0] at h1
                  simp at h1
              · exact ihn rest hrest d depth c h1

/-- Every candidate the top-level collector considers passed the `.exe`
filter and the classifier for its own containing directory. -/
theorem mem_findExecutablesCands :
    ∀ (es : List FSEntry) (d : String) (depth : Nat) (c : Cand),
      c ∈ findExecutablesCands d depth es →
      ∃ nm sub sz, c = ⟨joinPath sub nm, sz⟩ ∧ endsWithStr nm ".exe" = true ∧
        isValidAppName nm sub = true := by
  intro es
  induction es with
  | nil =>
      intro d depth c hc
      simp [findExecutablesCands] at hc
  | cons e rest ih =>
      intro d depth c hc
      cases e with
      | file nm sz =>
          simp only [findExecutablesCands] at hc
          rcases List.mem_append.mp hc with h1 | h1
          · by_cases hok : (endsWithStr nm ".exe" && isValidAppName nm d) = true
            · rw [if_pos hok] at h1
              by_cases hbig : sz ≥ 524288
              · rw [if_pos hbig] at h1
                have hce : c = ⟨joinPath d nm, sz⟩ := by simpa using h1
                obtain ⟨he, hv⟩ := Bool.and_eq_true_iff.mp hok
                exact ⟨nm, d, sz, hce, he, hv⟩
              · rw [if_neg hbig] at h1
                simp at h1
            · rw [if_neg hok] at h1
              simp at h1
          · exact ih d depth c h1
      | dir nm sub =>
          simp only [findExecutablesCands] at hc
          rcases List.mem_append.mp hc with h1 | h1
          · by_cases hd0 : depth > 0
            · rw [if_pos hd0] at h1
              exact mem_findCandidatesRecursive (sizeOf sub) sub (le_refl _)
                (joinPath d nm) (depth - 1) c h1
            · rw [if_neg hd0] at h1
              simp at h1
          · exact ih d depth c h1

/-- C9 (amended): when at least one candidate survives, `findExecutables`
returns exactly one path — that of the first candidate of maximal size —
and every candidate considered passed the classifier for its containing
directory; the 0.5 MB size floor, however, applies ONLY to executables of
the top-level folder: a small top-level file contributes nothing, while
subdirectory candidates collected by `findCandidatesRecursive` face no
size floor. -/
theorem findExecutables_spec :
    (∀ (d : String) (es : List FSEntry) (depth : Nat),
      (findExecutables d es depth = [] ∧ findExecutablesCands d depth es = []) ∨
      ∃ c, c ∈ findExecutablesCands d depth es ∧ findExecutables d es depth = [c.path] ∧
        ∀ c' ∈ findExecutablesCands d depth es, c'.size ≤ c.size) ∧
    (∀ (d : String) (depth : Nat) (es : List FSEntry) (c : Cand),
      c ∈ findExecutablesCands d depth es →
      ∃ nm sub sz, c = ⟨joinPath sub nm, sz⟩ ∧ endsWithStr nm ".exe" = true ∧
        isValidAppName nm sub = true) ∧
    (∀ (d : String) (depth : Nat) (nm : String) (sz : Nat) (rest : List FSEntry),
      sz < 524288 →
      findExecutablesCands d depth (FSEntry.file nm sz :: rest) =
        findExecutablesCands d depth rest) := by
  refine ⟨?_, fun d depth es c hc => mem_findExecutablesCands es d depth c hc, ?_⟩
  · intro d es depth
    rcases hl : findExecutablesCands d depth es with _ | ⟨c0, lrest⟩
    · left
      constructor
      · simp [findExecutables, hl, pickLargest]
      · rfl
    · right
      obtain ⟨x, hx⟩ := pickLargest_some_acc lrest c0
      have hpl : pickLargest (findExecutablesCands d depth es) = some x := by
        rw [hl]
        simpa [pickLargest, List.foldl_cons] using hx
      obtain ⟨hmem, hmax, _⟩ := pickLargest_spec (c0 :: lrest) none x
        (by simpa [pickLargest, hl] using hpl)
      refine ⟨x, ?_, ?_, ?_⟩
      · rcases hmem with h1 | h1
        · cases h1
        · exact h1
      · simp [findExecutables, hpl]
      · exact hmax
  · intro d depth nm sz rest hsz
    by_cases hok : (endsWithStr nm ".exe" && isValidAppName nm d) = true
    · simp [findExecutablesCands, hok, Nat.not_le.mpr hsz]
    · simp [findExecutablesCands, hok]

/-- A game folder whose only executable sits in a subfolder and is far
below the 0.5 MB floor. -/
def c9Entries : List FSEntry := [FSEntry.dir "sub" [FSEntry.file "mygame.exe" 1000]]

/-- C9 counterexample: a 1000-byte executable found through a
subdirectory IS selected — `findCandidatesRecursive` applies no 0.5 MB
floor — refuting "every candidate considered for selection has file size
of at least 0.5 MB". -/
theorem findExecutables_floor_bypassed :
    findExecutables "d:\\games" c9Entries 2 = ["d:\\games\\sub\\mygame.exe"] ∧
    findExecutablesCands "d:\\games" 2 c9Entries =
      [⟨"d:\\games\\sub\\mygame.exe", 1000⟩] ∧
    1000 < 524288 := by
  have hj1 : joinPath "d:\\games" "sub" = "d:\\games\\sub" := by decide
  have hj2 : joinPath "d:\\games\\sub" "mygame.exe" = "d:\\games\\sub\\mygame.exe" := by
    decide
  have hv : isValidAppName "mygame.exe" "d:\\games\\sub" = true := by decide
  have he : endsWithStr "mygame.exe" ".exe" = true := by decide
  have hcands : findExecutablesCands "d:\\games" 2 c9Entries =
      [⟨"d:\\games\\sub\\mygame.exe", 1000⟩] := by
    simp [c9Entries, findExecutablesCands, findCandidatesRecursive, hj1, hj2, hv, he]
  refine ⟨?_, hcands, by norm_num⟩
  simp [findExecutables, hcands, pickLargest]

end Atlas
